import Mathlib

/-!
Verification development for the claudeskill-manager repository.

Bytes are modelled as `Nat` values; byte sequences as `List Nat`.  The
platform primitives used by `packages/core/src/crypto.ts` (node:crypto's
AES-256-GCM, `Buffer` base64, `TextEncoder`/`TextDecoder`, SHA-256) are
embedded below following their published specifications (FIPS 197,
NIST SP 800-38D, RFC 4648, WHATWG Encoding, FIPS 180-4); the repository's
own functions are translated from the TypeScript source on top of them.
Randomness (`randomBytes`) is threaded through as an explicit argument.
-/

namespace CSM

/-! ### GF(2^8) arithmetic and the AES S-box (FIPS 197) -/

/-- Multiply by x in GF(2^8) modulo x^8+x^4+x^3+x+1 (for byte inputs). -/
def xtime (b : Nat) : Nat :=
  if b < 128 then b * 2 else (b - 128) * 2 ^^^ 0x1B

/-- Iterated GF(2^8) multiply helper: 8 shift-and-add steps. -/
def gfMulAux : Nat → Nat → Nat → Nat → Nat
  | 0, _, _, acc => acc
  | n + 1, a, b, acc =>
      gfMulAux n (xtime a) (b / 2) (if b % 2 = 1 then acc ^^^ a else acc)

/-- GF(2^8) multiplication of two bytes. -/
def gfMul (a b : Nat) : Nat := gfMulAux 8 a b 0

/-- GF(2^8) exponentiation. -/
def gfPow (a : Nat) : Nat → Nat
  | 0 => 1
  | n + 1 => gfMul a (gfPow a n)

/-- Multiplicative inverse in GF(2^8) (0 maps to 0): a^254. -/
def gfInv (a : Nat) : Nat := gfPow a 254

/-- Rotate a byte left by k bits. -/
def rotl8 (x k : Nat) : Nat := ((x * 2 ^ k) + x / 2 ^ (8 - k)) % 256

/-- The AES S-box: multiplicative inverse followed by the affine map. -/
def sbox (b : Nat) : Nat :=
  let i := gfInv b
  i ^^^ rotl8 i 1 ^^^ rotl8 i 2 ^^^ rotl8 i 3 ^^^ rotl8 i 4 ^^^ 0x63

/-! ### AES-256 key schedule and block encryption (FIPS 197) -/

/-- Round constant for key-schedule step j (j ≥ 1): x^(j-1) in GF(2^8). -/
def rconVal (j : Nat) : Nat := gfPow 2 (j - 1)

/-- Apply the S-box to each byte of a 4-byte word. -/
def subWord (w : List Nat) : List Nat := w.map sbox

/-- Rotate a 4-byte word left by one byte. -/
def rotWord (w : List Nat) : List Nat :=
  [w.getD 1 0, w.getD 2 0, w.getD 3 0, w.getD 0 0]

/-- Bytewise xor of two words. -/
def xorWord (a b : List Nat) : List Nat := List.zipWith Nat.xor a b

/-- The first 8 key-schedule words of an AES-256 key. -/
def keyWords0 (key : List Nat) : List (List Nat) :=
  (List.range 8).map fun i =>
    [key.getD (4 * i) 0, key.getD (4 * i + 1) 0,
     key.getD (4 * i + 2) 0, key.getD (4 * i + 3) 0]

/-- Append the next key-schedule word (AES-256 rule). -/
def ksNext (ws : List (List Nat)) : List (List Nat) :=
  let i := ws.length
  let prev := ws.getD (i - 1) []
  let t :=
    if i % 8 = 0 then
      xorWord (subWord (rotWord prev)) [rconVal (i / 8), 0, 0, 0]
    else if i % 8 = 4 then subWord prev
    else prev
  ws ++ [xorWord (ws.getD (i - 8) []) t]

/-- Iterate `ksNext`. -/
def ksIter : Nat → List (List Nat) → List (List Nat)
  | 0, ws => ws
  | n + 1, ws => ksIter n (ksNext ws)

/-- Full AES-256 key schedule: 60 words. -/
def keySchedule (key : List Nat) : List (List Nat) :=
  ksIter 52 (keyWords0 key)

/-- Round key r as 16 bytes. -/
def roundKey (ws : List (List Nat)) (r : Nat) : List Nat :=
  ws.getD (4 * r) [] ++ ws.getD (4 * r + 1) [] ++
  ws.getD (4 * r + 2) [] ++ ws.getD (4 * r + 3) []

/-- AddRoundKey on the 16-byte state (column-major flat layout). -/
def addRoundKey (s k : List Nat) : List Nat :=
  (List.range 16).map fun i => s.getD i 0 ^^^ k.getD i 0

/-- SubBytes on the 16-byte state. -/
def subBytesL (s : List Nat) : List Nat :=
  (List.range 16).map fun i => sbox (s.getD i 0)

/-- ShiftRows on the flat state (index r + 4c). -/
def shiftRowsL (s : List Nat) : List Nat :=
  [s.getD 0 0, s.getD 5 0, s.getD 10 0, s.getD 15 0,
   s.getD 4 0, s.getD 9 0, s.getD 14 0, s.getD 3 0,
   s.getD 8 0, s.getD 13 0, s.getD 2 0, s.getD 7 0,
   s.getD 12 0, s.getD 1 0, s.getD 6 0, s.getD 11 0]

/-- MixColumns on one 4-byte column. -/
def mixCol (a : List Nat) : List Nat :=
  let a0 := a.getD 0 0
  let a1 := a.getD 1 0
  let a2 := a.getD 2 0
  let a3 := a.getD 3 0
  [gfMul 2 a0 ^^^ gfMul 3 a1 ^^^ a2 ^^^ a3,
   a0 ^^^ gfMul 2 a1 ^^^ gfMul 3 a2 ^^^ a3,
   a0 ^^^ a1 ^^^ gfMul 2 a2 ^^^ gfMul 3 a3,
   gfMul 3 a0 ^^^ a1 ^^^ a2 ^^^ gfMul 2 a3]

/-- MixColumns on the flat 16-byte state. -/
def mixColumnsL (s : List Nat) : List Nat :=
  mixCol (s.take 4) ++ mixCol ((s.drop 4).take 4) ++
  mixCol ((s.drop 8).take 4) ++ mixCol ((s.drop 12).take 4)

/-- One middle AES round with round key index r. -/
def aesRound (ws : List (List Nat)) (r : Nat) (s : List Nat) : List Nat :=
  addRoundKey (mixColumnsL (shiftRowsL (subBytesL s))) (roundKey ws r)

/-- AES-256 block encryption of a 16-byte block. -/
def aesEncBlock (ws : List (List Nat)) (block : List Nat) : List Nat :=
  let s0 := addRoundKey block (roundKey ws 0)
  let s := (List.range 13).foldl (fun s i => aesRound ws (i + 1) s) s0
  addRoundKey (shiftRowsL (subBytesL s)) (roundKey ws 14)

/-! ### GCM mode (NIST SP 800-38D) -/

/-- Big-endian byte list (width k) of a natural number. -/
def beBytes (k n : Nat) : List Nat :=
  (List.range k).map fun i => n / 2 ^ (8 * (k - 1 - i)) % 256

/-- Big-endian value of a byte list. -/
def beNat (bs : List Nat) : Nat := bs.foldl (fun acc b => acc * 256 + b) 0

/-- Increment the last 32 bits of a 16-byte counter block. -/
def inc32 (b : List Nat) : List Nat :=
  b.take 12 ++ beBytes 4 ((beNat (b.drop 12) + 1) % 2 ^ 32)

/-- Iterate `inc32`. -/
def inc32Iter : Nat → List Nat → List Nat
  | 0, b => b
  | n + 1, b => inc32Iter n (inc32 b)

/-- One GF(2^128) shift-and-add step (MSB-first bit order, poly R = 0xE1 ∥ 0^120). -/
def gf128MulAux : Nat → Nat → Nat → Nat → Nat
  | 0, _, _, z => z
  | n + 1, x, v, z =>
      let z' := if x / 2 ^ 127 % 2 = 1 then z ^^^ v else z
      let v' := if v % 2 = 1 then v / 2 ^^^ 0xE1000000000000000000000000000000 else v / 2
      gf128MulAux n (x * 2 % 2 ^ 128) v' z'

/-- GF(2^128) multiplication of two 128-bit values. -/
def gf128Mul (x y : Nat) : Nat := gf128MulAux 128 x y 0

/-- Fuel-driven chunking of a byte list into k-byte chunks. -/
def chunksAux (k : Nat) : Nat → List Nat → List (List Nat)
  | 0, _ => []
  | f + 1, l => if l = [] then [] else l.take k :: chunksAux k f (l.drop k)

/-- Split a byte list into 16-byte chunks. -/
def chunks16 (l : List Nat) : List (List Nat) := chunksAux 16 l.length l

/-- GHASH over complete 16-byte blocks with hash subkey value h. -/
def ghashBlocks (h : Nat) (blocks : List (List Nat)) : Nat :=
  blocks.foldl (fun y b => gf128Mul (y ^^^ beNat b) h) 0

/-- GHASH of a padded byte string, returned as 16 bytes. -/
def ghashBytes (h : Nat) (bs : List Nat) : List Nat :=
  beBytes 16 (ghashBlocks h (chunks16 bs))

/-- Zero-pad a byte string to a multiple of 16 bytes. -/
def pad16 (bs : List Nat) : List Nat :=
  bs ++ List.replicate ((16 - bs.length % 16) % 16) 0

/-- The pre-counter block J0 (96-bit iv fast path, GHASH otherwise). -/
def computeJ0 (h : Nat) (iv : List Nat) : List Nat :=
  if iv.length = 12 then iv ++ [0, 0, 0, 1]
  else ghashBytes h (pad16 iv ++ beBytes 8 0 ++ beBytes 8 (8 * iv.length))

/-- CTR keystream: blocks inc32^(i+1)(J0) encrypted, truncated to n bytes. -/
def keystream (ws : List (List Nat)) (j0 : List Nat) (n : Nat) : List Nat :=
  (((List.range ((n + 15) / 16)).flatMap fun i =>
      aesEncBlock ws (inc32Iter (i + 1) j0))).take n

/-- GCM authentication tag (no AAD, full 16-byte tag as node:crypto uses). -/
def gcmTag (ws : List (List Nat)) (h : Nat) (j0 : List Nat) (ct : List Nat) :
    List Nat :=
  let s := ghashBlocks h
    (chunks16 (pad16 ct ++ beBytes 8 0 ++ beBytes 8 (8 * ct.length)))
  List.zipWith Nat.xor (aesEncBlock ws j0) (beBytes 16 s)

/-- AES-256-GCM encryption: returns (ciphertext, tag). -/
def aesGcmEncrypt (pt key iv : List Nat) : List Nat × List Nat :=
  let ws := keySchedule key
  let h := beNat (aesEncBlock ws (List.replicate 16 0))
  let j0 := computeJ0 h iv
  let ct := List.zipWith Nat.xor pt (keystream ws j0 pt.length)
  (ct, gcmTag ws h j0 ct)

/-- AES-256-GCM decryption: verifies the tag, then decrypts; fails closed. -/
def aesGcmDecrypt (ct key iv tag : List Nat) : Option (List Nat) :=
  let ws := keySchedule key
  let h := beNat (aesEncBlock ws (List.replicate 16 0))
  let j0 := computeJ0 h iv
  if gcmTag ws h j0 ct = tag then
    some (List.zipWith Nat.xor ct (keystream ws j0 ct.length))
  else none

/-! ### The repository's byte-level envelope (crypto.ts `encrypt`/`decrypt`) -/

/-- Result of `encrypt` in crypto.ts. -/
structure EncryptResult where
  ciphertext : List Nat
  iv : List Nat
  tag : List Nat
deriving Repr, DecidableEq

/-- crypto.ts `encrypt`: generates a fresh 12-byte iv (modelled as the
explicit `ivRand` argument standing for `generateRandomBytes(12)`) and
runs AES-256-GCM. -/
def encrypt (plaintext key ivRand : List Nat) : EncryptResult :=
  let iv := ivRand
  let r := aesGcmEncrypt plaintext key iv
  ⟨r.1, iv, r.2⟩

/-- crypto.ts `decrypt`: AES-256-GCM decryption; a tag mismatch throws in
the source, modelled as `none`. -/
def decrypt (ciphertext key iv tag : List Nat) : Option (List Nat) :=
  aesGcmDecrypt ciphertext key iv tag

/-! ### Length and inversion lemmas for the envelope -/

theorem length_addRoundKey (s k : List Nat) : (addRoundKey s k).length = 16 := by
  simp [addRoundKey]

theorem length_aesEncBlock (ws : List (List Nat)) (b : List Nat) :
    (aesEncBlock ws b).length = 16 := by
  simp [aesEncBlock, length_addRoundKey]

theorem length_flatMap_aes (ws : List (List Nat)) (j0 : List Nat)
    (rng : List Nat) :
    ((rng.flatMap fun i => aesEncBlock ws (inc32Iter (i + 1) j0))).length =
      16 * rng.length := by
  induction rng with
  | nil => simp
  | cons a t ih =>
      simp [List.flatMap_cons, ih, length_aesEncBlock]
      ring

theorem length_keystream (ws : List (List Nat)) (j0 : List Nat) (n : Nat) :
    (keystream ws j0 n).length = n := by
  rw [keystream, List.length_take, length_flatMap_aes, List.length_range]
  omega

theorem zipWith_xor_cancel (pt : List Nat) :
    ∀ ks : List Nat, pt.length ≤ ks.length →
      List.zipWith Nat.xor (List.zipWith Nat.xor pt ks) ks = pt := by
  induction pt with
  | nil => intro ks _; simp
  | cons a t ih =>
      intro ks hle
      cases ks with
      | nil => simp at hle
      | cons b kt =>
          simp only [List.zipWith_cons_cons, List.cons.injEq]
          exact ⟨Nat.xor_cancel_right b a, ih kt (by simpa using hle)⟩

/-! ### Base64 (RFC 4648, as produced and consumed by node `Buffer`) -/

/-- The base64 alphabet. -/
def b64Alphabet : List Char :=
  "ABCDEFGHIJKLMNOPQRSTUVWXYZabcdefghijklmnopqrstuvwxyz0123456789+/".toList

/-- Character for a sextet. -/
def b64Char (n : Nat) : Char := b64Alphabet.getD n 'A'

/-- Sextet for a character (64 when absent, as `indexOf` past the end). -/
def b64Index (c : Char) : Nat := b64Alphabet.indexOf c

/-- Base64-encode a byte list, with `=` padding. -/
def b64EncodeList : List Nat → List Char
  | [] => []
  | [b0] => [b64Char (b0 / 4), b64Char (b0 % 4 * 16), '=', '=']
  | [b0, b1] =>
      [b64Char (b0 / 4), b64Char (b0 % 4 * 16 + b1 / 16),
       b64Char (b1 % 16 * 4), '=']
  | b0 :: b1 :: b2 :: rest =>
      b64Char (b0 / 4) :: b64Char (b0 % 4 * 16 + b1 / 16) ::
      b64Char (b1 % 16 * 4 + b2 / 64) :: b64Char (b2 % 64) ::
      b64EncodeList rest

/-- Base64-decode four characters at a time, honouring `=` padding. -/
def b64DecodeList : List Char → List Nat
  | c0 :: c1 :: c2 :: c3 :: rest =>
      if c2 = '=' then [b64Index c0 * 4 + b64Index c1 / 16]
      else if c3 = '=' then
        [b64Index c0 * 4 + b64Index c1 / 16,
         b64Index c1 % 16 * 16 + b64Index c2 / 4]
      else
        (b64Index c0 * 4 + b64Index c1 / 16) ::
        (b64Index c1 % 16 * 16 + b64Index c2 / 4) ::
        (b64Index c2 % 4 * 64 + b64Index c3) ::
        b64DecodeList rest
  | _ => []

/-- crypto.ts `toBase64` (Buffer.toString("base64")). -/
def toBase64 (bs : List Nat) : String := (b64EncodeList bs).asString

/-- crypto.ts `fromBase64` (Buffer.from(s, "base64")). -/
def fromBase64 (s : String) : List Nat := b64DecodeList s.toList

theorem b64Index_b64Char : ∀ n, n < 64 → b64Index (b64Char n) = n := by decide

theorem b64Char_ne_pad : ∀ n, n < 64 → b64Char n ≠ '=' := by decide

theorem b64_round_trip :
    ∀ bs : List Nat, (∀ b ∈ bs, b < 256) →
      b64DecodeList (b64EncodeList bs) = bs := by
  intro bs
  induction bs using b64EncodeList.induct with
  | case1 => intro _; rfl
  | case2 b0 =>
      intro hb
      have h0 : b0 < 256 := hb b0 (by simp)
      rw [b64EncodeList, b64DecodeList,
        if_pos rfl,
        b64Index_b64Char _ (by omega), b64Index_b64Char _ (by omega)]
      simp only [List.cons.injEq, and_true]
      omega
  | case3 b0 b1 =>
      intro hb
      have h0 : b0 < 256 := hb b0 (by simp)
      have h1 : b1 < 256 := hb b1 (by simp)
      rw [b64EncodeList, b64DecodeList,
        if_neg (b64Char_ne_pad _ (by omega)),
        if_pos rfl,
        b64Index_b64Char _ (by omega), b64Index_b64Char _ (by omega),
        b64Index_b64Char _ (by omega)]
      simp only [List.cons.injEq, and_true]
      omega
  | case4 b0 b1 b2 rest ih =>
      intro hb
      have h0 : b0 < 256 := hb b0 (by simp)
      have h1 : b1 < 256 := hb b1 (by simp)
      have h2 : b2 < 256 := hb b2 (by simp)
      rw [b64EncodeList, b64DecodeList,
        if_neg (b64Char_ne_pad _ (by omega)),
        if_neg (b64Char_ne_pad _ (by omega)),
        b64Index_b64Char _ (by omega), b64Index_b64Char _ (by omega),
        b64Index_b64Char _ (by omega), b64Index_b64Char _ (by omega),
        ih (fun b hmem => hb b (by simp [hmem]))]
      simp only [List.cons.injEq, and_true]
      omega

/-! ### UTF-8 (TextEncoder / TextDecoder, WHATWG Encoding standard) -/

/-- UTF-8 encoding of one code point. -/
def utf8EncodeCp (v : Nat) : List Nat :=
  if v < 0x80 then [v]
  else if v < 0x800 then [0xC0 + v / 64, 0x80 + v % 64]
  else if v < 0x10000 then
    [0xE0 + v / 4096, 0x80 + v / 64 % 64, 0x80 + v % 64]
  else
    [0xF0 + v / 0x40000, 0x80 + v / 4096 % 64, 0x80 + v / 64 % 64,
     0x80 + v % 64]

/-- TextEncoder on a code-point sequence. -/
def utf8Encode (cps : List Nat) : List Nat := cps.flatMap utf8EncodeCp

/-- UTF-8 decoding to code points, emitting U+FFFD on invalid input as
TextDecoder does in its default (non-fatal) mode (replacement granularity
on truncated trailing sequences is approximate; valid input is decoded
exactly). Missing lookahead bytes read as 0xFF, which always fails the
continuation test. -/
def utf8Decode : List Nat → List Nat
  | [] => []
  | b0 :: rest =>
      if b0 < 0x80 then b0 :: utf8Decode rest
      else if 0xC2 ≤ b0 ∧ b0 < 0xE0 then
        let b1 := rest.getD 0 0xFF
        if 0x80 ≤ b1 ∧ b1 < 0xC0 then
          ((b0 - 0xC0) * 64 + (b1 - 0x80)) :: utf8Decode (rest.drop 1)
        else 0xFFFD :: utf8Decode rest
      else if 0xE0 ≤ b0 ∧ b0 < 0xF0 then
        let b1 := rest.getD 0 0xFF
        let b2 := rest.getD 1 0xFF
        if (0x80 ≤ b1 ∧ b1 < 0xC0) ∧ (0x80 ≤ b2 ∧ b2 < 0xC0) ∧
           (b0 = 0xE0 → 0xA0 ≤ b1) ∧ (b0 = 0xED → b1 < 0xA0) then
          ((b0 - 0xE0) * 4096 + (b1 - 0x80) * 64 + (b2 - 0x80)) ::
            utf8Decode (rest.drop 2)
        else 0xFFFD :: utf8Decode rest
      else if 0xF0 ≤ b0 ∧ b0 < 0xF5 then
        let b1 := rest.getD 0 0xFF
        let b2 := rest.getD 1 0xFF
        let b3 := rest.getD 2 0xFF
        if (0x80 ≤ b1 ∧ b1 < 0xC0) ∧ (0x80 ≤ b2 ∧ b2 < 0xC0) ∧
           (0x80 ≤ b3 ∧ b3 < 0xC0) ∧
           (b0 = 0xF0 → 0x90 ≤ b1) ∧ (b0 = 0xF4 → b1 < 0x90) then
          ((b0 - 0xF0) * 0x40000 + (b1 - 0x80) * 4096 +
            (b2 - 0x80) * 64 + (b3 - 0x80)) :: utf8Decode (rest.drop 3)
        else 0xFFFD :: utf8Decode rest
      else 0xFFFD :: utf8Decode rest
termination_by l => l.length
decreasing_by all_goals (simp only [List.length_cons, List.length_drop]; omega)

/-- A Unicode scalar value (what a Lean `Char` carries). -/
def ValidCp (v : Nat) : Prop := v < 0xD800 ∨ (0xDFFF < v ∧ v < 0x110000)

set_option maxRecDepth 8192 in
theorem utf8_decode_encode_cons (v : Nat) (hv : ValidCp v) (rest : List Nat) :
    utf8Decode (utf8EncodeCp v ++ rest) = v :: utf8Decode rest := by
  rcases Nat.lt_or_ge v 0x80 with h1 | h1
  · rw [utf8EncodeCp, if_pos h1]
    simp only [List.cons_append, List.nil_append]
    rw [utf8Decode.eq_def]
    simp only []
    rw [if_pos h1]
  rcases Nat.lt_or_ge v 0x800 with h2 | h2
  · rw [utf8EncodeCp, if_neg (by omega), if_pos h2]
    simp only [List.cons_append, List.nil_append]
    rw [utf8Decode.eq_def]
    simp only [List.getD_cons_zero, List.getD_cons_succ, List.drop_succ_cons,
      List.drop_zero]
    rw [if_neg (by omega), if_pos (by omega), if_pos (by omega)]
    congr 1
    omega
  rcases Nat.lt_or_ge v 0x10000 with h3 | h3
  · rw [utf8EncodeCp, if_neg (by omega), if_neg (by omega), if_pos h3]
    simp only [List.cons_append, List.nil_append]
    rw [utf8Decode.eq_def]
    simp only [List.getD_cons_zero, List.getD_cons_succ, List.drop_succ_cons,
      List.drop_zero]
    rw [if_neg (by omega), if_neg (by omega), if_pos (by omega),
      if_pos (by rcases hv with h | h <;> omega)]
    congr 1
    omega
  · have h4 : v < 0x110000 := by rcases hv with h | h <;> omega
    rw [utf8EncodeCp, if_neg (by omega), if_neg (by omega), if_neg (by omega)]
    simp only [List.cons_append, List.nil_append]
    rw [utf8Decode.eq_def]
    simp only [List.getD_cons_zero, List.getD_cons_succ, List.drop_succ_cons,
      List.drop_zero]
    rw [if_neg (by omega), if_neg (by omega), if_neg (by omega),
      if_pos (by omega), if_pos (by omega)]
    congr 1
    omega

theorem utf8_round_trip :
    ∀ cps : List Nat, (∀ v ∈ cps, ValidCp v) →
      utf8Decode (utf8Encode cps) = cps := by
  intro cps
  induction cps with
  | nil => intro _; rw [utf8Encode, List.flatMap_nil, utf8Decode.eq_def]
  | cons v t ih =>
      intro hv
      have iht := ih fun x hx => hv x (by simp [hx])
      rw [utf8Encode] at iht ⊢
      rw [List.flatMap_cons, utf8_decode_encode_cons v (hv v (by simp)), iht]

/-- Byte-level round trip: decrypting the output of `encrypt` under the
same key recovers the plaintext. -/
theorem decrypt_encrypt_bytes (pt key ivRand : List Nat) :
    decrypt (encrypt pt key ivRand).ciphertext key
      (encrypt pt key ivRand).iv (encrypt pt key ivRand).tag = some pt := by
  simp only [encrypt, decrypt, aesGcmEncrypt, aesGcmDecrypt, if_pos rfl,
    if_true, Option.some.injEq]
  have hlen : (List.zipWith Nat.xor pt
      (keystream (keySchedule key)
        (computeJ0 (beNat (aesEncBlock (keySchedule key) (List.replicate 16 0)))
          ivRand) pt.length)).length = pt.length := by
    rw [List.length_zipWith, length_keystream]
    omega
  rw [hlen]
  apply zipWith_xor_cancel
  rw [length_keystream]

/-! ### Byte-range invariants (all values stay below 256) -/

/-- All entries of a byte list are bytes. -/
def Bytes (l : List Nat) : Prop := ∀ b ∈ l, b < 256

/-- All words of a word list are byte lists. -/
def WBytes (ws : List (List Nat)) : Prop := ∀ w ∈ ws, Bytes w

theorem xor_lt_256 {a b : Nat} (ha : a < 256) (hb : b < 256) :
    a ^^^ b < 256 := by
  have h := @Nat.xor_lt_two_pow a b 8 (by omega) (by omega)
  omega

theorem bytes_getD {l : List Nat} (h : Bytes l) (i : Nat) : l.getD i 0 < 256 := by
  induction l generalizing i with
  | nil => simp [List.getD]
  | cons a t ih =>
      cases i with
      | zero => exact h a (by simp)
      | succ j =>
          simp only [List.getD_cons_succ]
          exact ih (fun b hb => h b (by simp [hb])) j

theorem xtime_lt {b : Nat} (h : b < 256) : xtime b < 256 := by
  rw [xtime]
  split
  · omega
  · exact xor_lt_256 (by omega) (by omega)

theorem gfMulAux_lt :
    ∀ (n a b acc : Nat), a < 256 → acc < 256 → gfMulAux n a b acc < 256 := by
  intro n
  induction n with
  | zero => intro a b acc _ hacc; exact hacc
  | succ m ih =>
      intro a b acc ha hacc
      rw [gfMulAux]
      apply ih _ _ _ (xtime_lt ha)
      split
      · exact xor_lt_256 hacc ha
      · exact hacc

theorem gfMul_lt {a : Nat} (b : Nat) (ha : a < 256) : gfMul a b < 256 :=
  gfMulAux_lt 8 a b 0 ha (by omega)

theorem gfPow_lt {a : Nat} (n : Nat) (ha : a < 256) : gfPow a n < 256 := by
  cases n with
  | zero => rw [gfPow]; omega
  | succ m => rw [gfPow]; exact gfMul_lt _ ha

theorem sbox_lt {b : Nat} (h : b < 256) : sbox b < 256 := by
  rw [sbox]
  have hi : gfInv b < 256 := gfPow_lt 254 h
  have hr : ∀ k, rotl8 (gfInv b) k < 256 := fun k => Nat.mod_lt _ (by omega)
  exact xor_lt_256 (xor_lt_256 (xor_lt_256 (xor_lt_256 (xor_lt_256 hi (hr 1))
    (hr 2)) (hr 3)) (hr 4)) (by omega)

theorem bytes_xorWord {a b : List Nat} (ha : Bytes a) (hb : Bytes b) :
    Bytes (xorWord a b) := by
  rw [xorWord]
  induction a generalizing b with
  | nil => intro x hx; simp at hx
  | cons c t ih =>
      cases b with
      | nil => intro x hx; simp at hx
      | cons d u =>
          intro x hx
          simp only [List.zipWith_cons_cons, List.mem_cons] at hx
          rcases hx with rfl | hx
          · exact xor_lt_256 (ha c (by simp)) (hb d (by simp))
          · exact ih (fun y hy => ha y (by simp [hy]))
              (fun y hy => hb y (by simp [hy])) x hx

theorem bytes_subWord {w : List Nat} (h : Bytes w) : Bytes (subWord w) := by
  intro b hb
  rw [subWord] at hb
  obtain ⟨a, ha, rfl⟩ := List.mem_map.mp hb
  exact sbox_lt (h a ha)

theorem bytes_rotWord {w : List Nat} (h : Bytes w) : Bytes (rotWord w) := by
  intro b hb
  rw [rotWord] at hb
  simp only [List.mem_cons, List.not_mem_nil, or_false] at hb
  rcases hb with rfl | rfl | rfl | rfl <;> exact bytes_getD h _

theorem wbytes_getD {ws : List (List Nat)} (h : WBytes ws) (i : Nat) :
    Bytes (ws.getD i []) := by
  induction ws generalizing i with
  | nil => simp [List.getD]; intro b hb; simp at hb
  | cons w t ih =>
      cases i with
      | zero => exact h w (by simp)
      | succ j =>
          simp only [List.getD_cons_succ]
          exact ih (fun x hx => h x (by simp [hx])) j

theorem wbytes_keyWords0 {key : List Nat} (h : Bytes key) :
    WBytes (keyWords0 key) := by
  intro w hw
  rw [keyWords0] at hw
  obtain ⟨i, _, rfl⟩ := List.mem_map.mp hw
  intro b hb
  simp only [List.mem_cons, List.not_mem_nil, or_false] at hb
  rcases hb with rfl | rfl | rfl | rfl <;> exact bytes_getD h _

theorem wbytes_ksNext {ws : List (List Nat)} (h : WBytes ws) :
    WBytes (ksNext ws) := by
  intro w hw
  rw [ksNext] at hw
  rw [List.mem_append] at hw
  rcases hw with hw | hw
  · exact h w hw
  · simp only [List.mem_singleton] at hw
    subst hw
    apply bytes_xorWord (wbytes_getD h _)
    split
    · apply bytes_xorWord (bytes_subWord (bytes_rotWord (wbytes_getD h _)))
      intro b hb
      simp only [List.mem_cons, List.not_mem_nil, or_false] at hb
      rcases hb with rfl | rfl | rfl | rfl
      · exact gfPow_lt _ (by omega)
      all_goals omega
    split
    · exact bytes_subWord (wbytes_getD h _)
    · exact wbytes_getD h _

theorem wbytes_ksIter : ∀ (n : Nat) (ws : List (List Nat)),
    WBytes ws → WBytes (ksIter n ws) := by
  intro n
  induction n with
  | zero => intro ws h; exact h
  | succ m ih => intro ws h; rw [ksIter]; exact ih _ (wbytes_ksNext h)

theorem wbytes_keySchedule {key : List Nat} (h : Bytes key) :
    WBytes (keySchedule key) :=
  wbytes_ksIter 52 _ (wbytes_keyWords0 h)

theorem bytes_roundKey {ws : List (List Nat)} (h : WBytes ws) (r : Nat) :
    Bytes (roundKey ws r) := by
  intro b hb
  rw [roundKey] at hb
  simp only [List.mem_append] at hb
  rcases hb with ((hb | hb) | hb) | hb <;> exact wbytes_getD h _ b hb

theorem bytes_addRoundKey {s k : List Nat} (hs : Bytes s) (hk : Bytes k) :
    Bytes (addRoundKey s k) := by
  intro b hb
  rw [addRoundKey] at hb
  obtain ⟨i, _, rfl⟩ := List.mem_map.mp hb
  exact xor_lt_256 (bytes_getD hs i) (bytes_getD hk i)

theorem bytes_subBytesL {s : List Nat} (hs : Bytes s) : Bytes (subBytesL s) := by
  intro b hb
  rw [subBytesL] at hb
  obtain ⟨i, _, rfl⟩ := List.mem_map.mp hb
  exact sbox_lt (bytes_getD hs i)

theorem bytes_shiftRowsL {s : List Nat} (hs : Bytes s) : Bytes (shiftRowsL s) := by
  intro b hb
  rw [shiftRowsL] at hb
  simp only [List.mem_cons, List.not_mem_nil, or_false] at hb
  rcases hb with rfl | rfl | rfl | rfl | rfl | rfl | rfl | rfl | rfl | rfl |
    rfl | rfl | rfl | rfl | rfl | rfl <;> exact bytes_getD hs _

theorem bytes_mixCol {a : List Nat} (ha : Bytes a) : Bytes (mixCol a) := by
  intro b hb
  rw [mixCol] at hb
  simp only [List.mem_cons, List.not_mem_nil, or_false] at hb
  have h0 := bytes_getD ha 0
  have h1 := bytes_getD ha 1
  have h2 := bytes_getD ha 2
  have h3 := bytes_getD ha 3
  rcases hb with rfl | rfl | rfl | rfl <;>
    apply xor_lt_256 (xor_lt_256 (xor_lt_256 _ _) _) _ <;>
    first
      | exact gfMul_lt _ (by omega)
      | omega

theorem bytes_sublist {l : List Nat} (h : Bytes l) :
    ∀ n, Bytes (l.take n) ∧ Bytes (l.drop n) := by
  intro n
  constructor
  · intro b hb; exact h b (List.mem_of_mem_take hb)
  · intro b hb; exact h b (List.mem_of_mem_drop hb)

theorem bytes_mixColumnsL {s : List Nat} (hs : Bytes s) :
    Bytes (mixColumnsL s) := by
  intro b hb
  rw [mixColumnsL] at hb
  simp only [List.mem_append] at hb
  rcases hb with ((hb | hb) | hb) | hb <;>
    refine bytes_mixCol ?_ b hb
  · exact (bytes_sublist hs 4).1
  · exact (bytes_sublist (bytes_sublist hs 4).2 4).1
  · exact (bytes_sublist (bytes_sublist hs 8).2 4).1
  · exact (bytes_sublist (bytes_sublist hs 12).2 4).1

theorem bytes_aesRound {ws : List (List Nat)} {s : List Nat}
    (hw : WBytes ws) (hs : Bytes s) (r : Nat) : Bytes (aesRound ws r s) := by
  rw [aesRound]
  exact bytes_addRoundKey (bytes_mixColumnsL (bytes_shiftRowsL
    (bytes_subBytesL hs))) (bytes_roundKey hw r)

theorem bytes_aesEncBlock {ws : List (List Nat)} {b : List Nat}
    (hw : WBytes ws) (hb : Bytes b) : Bytes (aesEncBlock ws b) := by
  rw [aesEncBlock]
  apply bytes_addRoundKey _ (bytes_roundKey hw 14)
  apply bytes_shiftRowsL
  apply bytes_subBytesL
  have base : Bytes (addRoundKey b (roundKey ws 0)) :=
    bytes_addRoundKey hb (bytes_roundKey hw 0)
  generalize addRoundKey b (roundKey ws 0) = s0 at base
  have : ∀ (rng : List Nat) (s : List Nat), Bytes s →
      Bytes (rng.foldl (fun s i => aesRound ws (i + 1) s) s) := by
    intro rng
    induction rng with
    | nil => intro s hs; exact hs
    | cons a t ih =>
        intro s hs
        rw [List.foldl_cons]
        exact ih _ (bytes_aesRound hw hs _)
  exact this _ _ base

theorem bytes_beBytes (k n : Nat) : Bytes (beBytes k n) := by
  intro b hb
  rw [beBytes] at hb
  obtain ⟨i, _, rfl⟩ := List.mem_map.mp hb
  exact Nat.mod_lt _ (by omega)

theorem bytes_inc32 {b : List Nat} (h : Bytes b) : Bytes (inc32 b) := by
  intro x hx
  rw [inc32] at hx
  rw [List.mem_append] at hx
  rcases hx with hx | hx
  · exact (bytes_sublist h 12).1 x hx
  · exact bytes_beBytes _ _ x hx

theorem bytes_inc32Iter : ∀ (n : Nat) {b : List Nat}, Bytes b →
    Bytes (inc32Iter n b) := by
  intro n
  induction n with
  | zero => intro b h; exact h
  | succ m ih => intro b h; rw [inc32Iter]; exact ih (bytes_inc32 h)

theorem bytes_computeJ0 {h : Nat} {iv : List Nat} (hiv : Bytes iv) :
    Bytes (computeJ0 h iv) := by
  rw [computeJ0]
  split
  · intro b hb
    rw [List.mem_append] at hb
    rcases hb with hb | hb
    · exact hiv b hb
    · simp only [List.mem_cons, List.not_mem_nil, or_false] at hb
      rcases hb with rfl | rfl | rfl | rfl <;> omega
  · exact bytes_beBytes _ _

theorem bytes_keystream {ws : List (List Nat)} {j0 : List Nat}
    (hw : WBytes ws) (hj : Bytes j0) (n : Nat) : Bytes (keystream ws j0 n) := by
  intro b hb
  rw [keystream] at hb
  have hb' := List.mem_of_mem_take hb
  rw [List.mem_flatMap] at hb'
  obtain ⟨i, _, hmem⟩ := hb'
  exact bytes_aesEncBlock hw (bytes_inc32Iter _ hj) b hmem

theorem bytes_zipxor {a b : List Nat} (ha : Bytes a) (hb : Bytes b) :
    Bytes (List.zipWith Nat.xor a b) := by
  induction a generalizing b with
  | nil => intro x hx; simp at hx
  | cons c t ih =>
      cases b with
      | nil => intro x hx; simp at hx
      | cons d u =>
          intro x hx
          simp only [List.zipWith_cons_cons, List.mem_cons] at hx
          rcases hx with rfl | hx
          · exact xor_lt_256 (ha c (by simp)) (hb d (by simp))
          · exact ih (fun y hy => ha y (by simp [hy]))
              (fun y hy => hb y (by simp [hy])) x hx

/-! ### String-level envelope (crypto.ts `encryptString`/`decryptString`) -/

/-- TextEncoder().encode on a Lean string. -/
def textEncode (s : String) : List Nat :=
  utf8Encode (s.toList.map Char.toNat)

/-- TextDecoder().decode to a Lean string. -/
def textDecode (bs : List Nat) : String :=
  ((utf8Decode bs).map Char.ofNat).asString

/-- Result of `encryptString` in crypto.ts: base64-encoded fields. -/
structure StringEncryptResult where
  ciphertext : String
  iv : String
  tag : String
deriving Repr, DecidableEq

/-- crypto.ts `encryptString`: UTF-8 encode, encrypt, base64 the fields. -/
def encryptString (plaintext : String) (key ivRand : List Nat) :
    StringEncryptResult :=
  let r := encrypt (textEncode plaintext) key ivRand
  ⟨toBase64 r.ciphertext, toBase64 r.iv, toBase64 r.tag⟩

/-- crypto.ts `decryptString`: base64-decode the fields, decrypt, UTF-8
decode (failure propagates as `none`). -/
def decryptString (ciphertext : String) (key : List Nat) (iv tag : String) :
    Option String :=
  (decrypt (fromBase64 ciphertext) key (fromBase64 iv) (fromBase64 tag)).map
    textDecode

theorem validCp_char (c : Char) : ValidCp c.toNat := by
  have h := c.valid
  rcases h with h | ⟨h1, h2⟩
  · left; exact_mod_cast h
  · right
    refine ⟨?_, ?_⟩
    · exact_mod_cast h1
    · exact_mod_cast h2

theorem textDecode_textEncode (s : String) : textDecode (textEncode s) = s := by
  rw [textDecode, textEncode,
    utf8_round_trip _ (by
      intro v hv
      obtain ⟨c, _, rfl⟩ := List.mem_map.mp hv
      exact validCp_char c)]
  rw [List.map_map]
  have : s.toList.map (Char.ofNat ∘ Char.toNat) = s.toList := by
    apply List.map_congr_left ?_ |>.trans (List.map_id _)
    intro c _
    exact Char.ofNat_toNat c
  rw [this]
  simp [List.asString, String.toList]

theorem bytes_textEncode (s : String) : Bytes (textEncode s) := by
  intro b hb
  rw [textEncode, utf8Encode] at hb
  rw [List.mem_flatMap] at hb
  obtain ⟨v, hv, hmem⟩ := hb
  obtain ⟨c, _, rfl⟩ := List.mem_map.mp hv
  have hval : c.toNat < 0x110000 := by
    rcases validCp_char c with h | ⟨_, h⟩ <;> omega
  rw [utf8EncodeCp] at hmem
  split at hmem
  · simp only [List.mem_singleton] at hmem; omega
  split at hmem
  · simp only [List.mem_cons, List.not_mem_nil, or_false] at hmem
    rcases hmem with rfl | rfl <;> omega
  split at hmem
  · simp only [List.mem_cons, List.not_mem_nil, or_false] at hmem
    rcases hmem with rfl | rfl | rfl <;> omega
  · simp only [List.mem_cons, List.not_mem_nil, or_false] at hmem
    rcases hmem with rfl | rfl | rfl | rfl <;> omega

/-- String-level round trip, given byte-valued key and iv randomness. -/
theorem decryptString_encryptString (s : String) (key ivRand : List Nat)
    (hkey : ∀ b ∈ key, b < 256) (hiv : ∀ b ∈ ivRand, b < 256) :
    decryptString (encryptString s key ivRand).ciphertext key
      (encryptString s key ivRand).iv (encryptString s key ivRand).tag =
      some s := by
  have hws : WBytes (keySchedule key) := wbytes_keySchedule hkey
  have hj0 : Bytes (computeJ0
      (beNat (aesEncBlock (keySchedule key) (List.replicate 16 0))) ivRand) :=
    bytes_computeJ0 hiv
  have hct : Bytes (encrypt (textEncode s) key ivRand).ciphertext := by
    rw [encrypt, aesGcmEncrypt]
    exact bytes_zipxor (bytes_textEncode s) (bytes_keystream hws hj0 _)
  have htag : Bytes (encrypt (textEncode s) key ivRand).tag := by
    rw [encrypt, aesGcmEncrypt, gcmTag]
    exact bytes_zipxor (bytes_aesEncBlock hws hj0) (bytes_beBytes _ _)
  rw [decryptString, encryptString]
  simp only
  rw [fromBase64, toBase64, List.toList_asString, b64_round_trip _ hct,
    fromBase64, toBase64, List.toList_asString,
    b64_round_trip _ (by rw [encrypt]; exact hiv),
    fromBase64, toBase64, List.toList_asString, b64_round_trip _ htag]
  rw [decrypt_encrypt_bytes]
  simp [textDecode_textEncode]

/-! ### SHA-256 (FIPS 180-4), the digest behind `computeContentHash` -/

/-- Fuel-driven binary search for the integer cube root. -/
def icbrtAux : Nat → Nat → Nat → Nat → Nat
  | 0, _, lo, _ => lo
  | f + 1, n, lo, hi =>
      let mid := (lo + hi) / 2
      if mid = lo then lo
      else if mid ^ 3 ≤ n then icbrtAux f n mid hi
      else icbrtAux f n lo mid

/-- Integer cube root (for inputs below 2^120). -/
def icbrt (n : Nat) : Nat := icbrtAux 128 n 0 (2 ^ 40)

/-- The first 64 primes. -/
def primes64 : List Nat :=
  [2, 3, 5, 7, 11, 13, 17, 19, 23, 29, 31, 37, 41, 43, 47, 53,
   59, 61, 67, 71, 73, 79, 83, 89, 97, 101, 103, 107, 109, 113, 127, 131,
   137, 139, 149, 151, 157, 163, 167, 173, 179, 181, 191, 193, 197, 199,
   211, 223, 227, 229, 233, 239, 241, 251, 257, 263, 269, 271, 277, 281,
   283, 293, 307, 311]

/-- SHA-256 round constants: fractional cube roots of the first 64 primes. -/
def sha256K : List Nat := primes64.map fun p => icbrt (p * 2 ^ 96) % 2 ^ 32

/-- Fuel-driven binary search for the integer square root. -/
def isqrtAux : Nat → Nat → Nat → Nat → Nat
  | 0, _, lo, _ => lo
  | f + 1, n, lo, hi =>
      let mid := (lo + hi) / 2
      if mid = lo then lo
      else if mid ^ 2 ≤ n then isqrtAux f n mid hi
      else isqrtAux f n lo mid

/-- Integer square root (for inputs below 2^80). -/
def isqrt (n : Nat) : Nat := isqrtAux 128 n 0 (2 ^ 40)

/-- SHA-256 initial state: fractional square roots of the first 8 primes. -/
def sha256H0 : List Nat :=
  (primes64.take 8).map fun p => isqrt (p * 2 ^ 64) % 2 ^ 32

/-- Rotate a 32-bit word right by k bits. -/
def rotr32 (x k : Nat) : Nat := (x / 2 ^ k + x % 2 ^ k * 2 ^ (32 - k)) % 2 ^ 32

/-- SHA-256 small sigma 0. -/
def ssig0 (x : Nat) : Nat := rotr32 x 7 ^^^ rotr32 x 18 ^^^ x / 2 ^ 3

/-- SHA-256 small sigma 1. -/
def ssig1 (x : Nat) : Nat := rotr32 x 17 ^^^ rotr32 x 19 ^^^ x / 2 ^ 10

/-- SHA-256 big sigma 0. -/
def bsig0 (x : Nat) : Nat := rotr32 x 2 ^^^ rotr32 x 13 ^^^ rotr32 x 22

/-- SHA-256 big sigma 1. -/
def bsig1 (x : Nat) : Nat := rotr32 x 6 ^^^ rotr32 x 11 ^^^ rotr32 x 25

/-- SHA-256 choose function (inputs are 32-bit words). -/
def chF (x y z : Nat) : Nat := x &&& y ^^^ (x ^^^ 0xFFFFFFFF) &&& z

/-- SHA-256 majority function. -/
def majF (x y z : Nat) : Nat := x &&& y ^^^ x &&& z ^^^ y &&& z

/-- Append the next message-schedule word. -/
def schedNext (ws : List Nat) : List Nat :=
  let i := ws.length
  ws ++ [(ssig1 (ws.getD (i - 2) 0) + ws.getD (i - 7) 0 +
          ssig0 (ws.getD (i - 15) 0) + ws.getD (i - 16) 0) % 2 ^ 32]

/-- Iterate `schedNext`. -/
def schedIter : Nat → List Nat → List Nat
  | 0, ws => ws
  | n + 1, ws => schedIter n (schedNext ws)

/-- One SHA-256 compression round on the 8-word working state. -/
def sha256Round (st : List Nat) (k w : Nat) : List Nat :=
  let a := st.getD 0 0
  let b := st.getD 1 0
  let c := st.getD 2 0
  let d := st.getD 3 0
  let e := st.getD 4 0
  let f := st.getD 5 0
  let g := st.getD 6 0
  let h := st.getD 7 0
  let t1 := (h + bsig1 e + chF e f g + k + w) % 2 ^ 32
  let t2 := (bsig0 a + majF a b c) % 2 ^ 32
  [(t1 + t2) % 2 ^ 32, a, b, c, (d + t1) % 2 ^ 32, e, f, g]

/-- SHA-256 compression of one 16-word block into the chaining state. -/
def sha256Compress (st : List Nat) (block : List Nat) : List Nat :=
  let w := schedIter 48 block
  let st' := (List.range 64).foldl
    (fun s i => sha256Round s (sha256K.getD i 0) (w.getD i 0)) st
  List.zipWith (fun x y => (x + y) % 2 ^ 32) st st'

/-- SHA-256 padding: 0x80, zeros to 56 mod 64, 8-byte big-endian bit length. -/
def sha256Pad (msg : List Nat) : List Nat :=
  msg ++ 0x80 :: List.replicate ((119 - msg.length % 64) % 64) 0 ++
    beBytes 8 (8 * msg.length)

/-- Split a byte list into 64-byte chunks. -/
def chunks64 (l : List Nat) : List (List Nat) := chunksAux 64 l.length l

/-- Big-endian 32-bit words of a byte list. -/
def bytesToWords (l : List Nat) : List Nat :=
  (List.range (l.length / 4)).map fun i => beNat ((l.drop (4 * i)).take 4)

/-- SHA-256 digest (32 bytes) of a byte list. -/
def sha256Bytes (msg : List Nat) : List Nat :=
  let blocks := chunks64 (sha256Pad msg)
  let final := blocks.foldl (fun st blk => sha256Compress st (bytesToWords blk))
    sha256H0
  final.flatMap (beBytes 4)

/-- Lowercase hex digit. -/
def hexDigit (n : Nat) : Char := "0123456789abcdef".toList.getD n '0'

/-- Lowercase hex string of a byte list. -/
def toHex (bs : List Nat) : String :=
  (bs.flatMap fun b => [hexDigit (b / 16), hexDigit (b % 16)]).asString

/-- createHash("sha256").update(content, "utf8").digest("hex"). -/
def sha256Hex (content : String) : String := toHex (sha256Bytes (textEncode content))

/-- crypto.ts `computeContentHash`: short 8-hex-character SHA-256
(`.slice(0, 8)` on the hex digest). -/
def computeContentHash (content : String) : String :=
  ((sha256Hex content).toList.take 8).asString

/-- crypto.ts `computeFullHash`: full hex SHA-256. -/
def computeFullHash (content : String) : String := sha256Hex content

/-! ### Key derivation and the key hierarchy (crypto.ts, onboarding.ts,
sync.ts `getMasterKey`) -/

/-- Modelled from the spec: §4.2 Key Derivation — the Argon2id KDF is the
external `@noble/hashes` dependency, not code of this repository.  The
claims verified here use only that `derive` is a pure deterministic
function of (secret material, salt) with a fixed 256-bit output, so it is
modelled as one concrete such function (a SHA-256 of the concatenation);
its memory-hardness and internals play no role in any theorem below. -/
def argon2id (secret salt : List Nat) : List Nat :=
  sha256Bytes (secret ++ salt)

/-- A derived key as in crypto.ts (`DerivedKey`). -/
structure DerivedKey where
  key : List Nat
  salt : List Nat
deriving Repr, DecidableEq

/-- crypto.ts `deriveKeyFromPassphrase`. -/
def deriveKeyFromPassphrase (passphrase : String) (salt : List Nat) :
    DerivedKey :=
  ⟨argon2id (textEncode passphrase) salt, salt⟩

/-- Result of crypto.ts `encryptMasterKey`. -/
structure MasterKeyEnvelope where
  encrypted : List Nat
  iv : List Nat
  tag : List Nat
deriving Repr, DecidableEq

/-- crypto.ts `encryptMasterKey`. -/
def encryptMasterKey (masterKey derivedKey ivRand : List Nat) :
    MasterKeyEnvelope :=
  let r := encrypt masterKey derivedKey ivRand
  ⟨r.ciphertext, r.iv, r.tag⟩

/-- crypto.ts `decryptMasterKey`. -/
def decryptMasterKey (encryptedMasterKey derivedKey iv tag : List Nat) :
    Option (List Nat) :=
  decrypt encryptedMasterKey derivedKey iv tag

/-- onboarding.ts: the wrapped-master-key blob, iv ∥ tag ∥ ciphertext,
built with `Uint8Array.set` at offsets 0, iv.length, iv.length+tag.length. -/
def wrapMasterKeyBlob (masterKey : List Nat) (passphrase : String)
    (salt ivRand : List Nat) : List Nat :=
  let derivedKey := deriveKeyFromPassphrase passphrase salt
  let em := encryptMasterKey masterKey derivedKey.key ivRand
  em.iv ++ em.tag ++ em.encrypted

/-- sync.ts `getMasterKey`: base64-decode salt and blob from credentials,
slice the blob at the fixed offsets ([0,12) iv, [12,28) tag, [28,∞) ct),
derive the key and unwrap; errors surface as `none`. -/
def getMasterKey (passphrase : String) (credSalt credBlob : String) :
    Option (List Nat) :=
  let salt := fromBase64 credSalt
  let encryptedMasterKey := fromBase64 credBlob
  let iv := encryptedMasterKey.take 12
  let tag := (encryptedMasterKey.drop 12).take 16
  let ciphertext := encryptedMasterKey.drop 28
  let derivedKey := deriveKeyFromPassphrase passphrase salt
  decryptMasterKey ciphertext derivedKey.key iv tag

theorem length_beBytes (k n : Nat) : (beBytes k n).length = k := by
  simp [beBytes]

theorem length_gcmTag (ws : List (List Nat)) (h : Nat) (j0 ct : List Nat) :
    (gcmTag ws h j0 ct).length = 16 := by
  rw [gcmTag]
  simp only [List.length_zipWith, length_aesEncBlock, length_beBytes]
  rfl

theorem length_encrypt_ct (pt key ivRand : List Nat) :
    (encrypt pt key ivRand).ciphertext.length = pt.length := by
  rw [encrypt, aesGcmEncrypt]
  simp only [List.length_zipWith, length_keystream]
  omega

theorem bytes_sha256Bytes (msg : List Nat) : Bytes (sha256Bytes msg) := by
  intro b hb
  rw [sha256Bytes] at hb
  rw [List.mem_flatMap] at hb
  obtain ⟨w, _, hmem⟩ := hb
  exact bytes_beBytes _ _ b hmem

/-- Wrap/unwrap round trip: unlocking with the same passphrase and salt
recovers the master key from the iv ∥ tag ∥ ciphertext blob. -/
theorem getMasterKey_wrap (passphrase : String)
    (masterKey salt ivRand : List Nat)
    (hmk : ∀ b ∈ masterKey, b < 256)
    (hsalt : ∀ b ∈ salt, b < 256)
    (hivlen : ivRand.length = 12) (hiv : ∀ b ∈ ivRand, b < 256) :
    getMasterKey passphrase (toBase64 salt)
      (toBase64 (wrapMasterKeyBlob masterKey passphrase salt ivRand)) =
      some masterKey := by
  have hdk : Bytes (argon2id (textEncode passphrase) salt) :=
    bytes_sha256Bytes _
  have hws : WBytes (keySchedule (argon2id (textEncode passphrase) salt)) :=
    wbytes_keySchedule hdk
  have hj0 : Bytes (computeJ0
      (beNat (aesEncBlock (keySchedule (argon2id (textEncode passphrase) salt))
        (List.replicate 16 0))) ivRand) := bytes_computeJ0 hiv
  set dk := argon2id (textEncode passphrase) salt with hdkdef
  have hct : Bytes (encrypt masterKey dk ivRand).ciphertext := by
    rw [encrypt, aesGcmEncrypt]
    exact bytes_zipxor hmk (bytes_keystream hws hj0 _)
  have htag : Bytes (encrypt masterKey dk ivRand).tag := by
    rw [encrypt, aesGcmEncrypt, gcmTag]
    exact bytes_zipxor (bytes_aesEncBlock hws hj0) (bytes_beBytes _ _)
  have hblob : Bytes (wrapMasterKeyBlob masterKey passphrase salt ivRand) := by
    rw [wrapMasterKeyBlob]
    intro b hb
    simp only [List.append_assoc, List.mem_append] at hb
    rcases hb with hb | hb | hb
    · exact hiv b hb
    · exact htag b hb
    · exact hct b hb
  rw [getMasterKey]
  simp only [fromBase64, toBase64, List.toList_asString]
  rw [b64_round_trip _ hsalt, b64_round_trip _ hblob]
  rw [wrapMasterKeyBlob]
  simp only [deriveKeyFromPassphrase, encryptMasterKey]
  rw [List.append_assoc]
  have hivlen' : (encrypt masterKey dk ivRand).iv.length = 12 := by
    rw [encrypt]; exact hivlen
  have htaglen : (encrypt masterKey dk ivRand).tag.length = 16 := by
    rw [encrypt]; exact length_gcmTag _ _ _ _
  rw [List.take_left' hivlen', List.drop_left' hivlen']
  have hdrop : ((encrypt masterKey dk ivRand).tag ++
      (encrypt masterKey dk ivRand).ciphertext).take 16 =
      (encrypt masterKey dk ivRand).tag := List.take_left' htaglen
  have hdrop28 :
      ((encrypt masterKey dk ivRand).iv ++
        ((encrypt masterKey dk ivRand).tag ++
          (encrypt masterKey dk ivRand).ciphertext)).drop 28 =
      (encrypt masterKey dk ivRand).ciphertext := by
    rw [show (28 : Nat) = 12 + 16 from rfl, ← List.drop_drop,
      List.drop_left' hivlen', List.drop_left' htaglen]
  rw [hdrop, hdrop28]
  exact decrypt_encrypt_bytes masterKey dk ivRand

/-! ### Skills and content addressing (core types.ts, skills.ts
`computeSkillHash`, `getSkillKey`) -/

/-- types.ts `SkillType`. -/
inductive SkillType
  | command
  | skill
  | agent
deriving Repr, DecidableEq

/-- The string value of a `SkillType` (the union member itself in TS). -/
def SkillType.toStr : SkillType → String
  | .command => "command"
  | .skill => "skill"
  | .agent => "agent"

/-- A supporting file of a directory-based skill. -/
structure SkillFile where
  name : String
  content : String
deriving Repr, DecidableEq

/-- types.ts `Skill` (metadata modelled as an association list; its shape
is irrelevant to every operation modelled here). -/
structure Skill where
  name : String
  content : String
  metadata : List (String × String)
  path : String
  modifiedAt : String
  type : SkillType
  files : Option (List SkillFile)
deriving Repr, DecidableEq

/-- JSON.stringify escaping of one character. -/
def jsonEscapeChar (c : Char) : List Char :=
  if c = '"' then ['\\', '"']
  else if c = '\\' then ['\\', '\\']
  else if c = '\x08' then ['\\', 'b']
  else if c = '\t' then ['\\', 't']
  else if c = '\n' then ['\\', 'n']
  else if c = '\x0C' then ['\\', 'f']
  else if c = '\r' then ['\\', 'r']
  else if c.toNat < 0x20 then
    ['\\', 'u', '0', '0', hexDigit (c.toNat / 16), hexDigit (c.toNat % 16)]
  else [c]

/-- JSON.stringify of a string value. -/
def jsonString (s : String) : String :=
  (('"' :: s.toList.flatMap jsonEscapeChar) ++ ['"']).asString

/-- JSON.stringify of one `(name, content)` supporting-file object. -/
def fileJson (f : SkillFile) : String :=
  "\x7b\"name\":" ++ jsonString f.name ++
  ",\"content\":" ++ jsonString f.content ++ "\x7d"

/-- JSON.stringify of the files array (`skill.files?.map(...) ?? []`,
preserving the given order). -/
def filesJson (files : Option (List SkillFile)) : String :=
  "[" ++ String.intercalate "," ((files.getD []).map fileJson) ++ "]"

/-- skills.ts `computeSkillHash`'s canonical JSON payload
(field order name, type, content, files as in the object literal). -/
def canonicalSkillJson (skill : Skill) : String :=
  "\x7b\"name\":" ++ jsonString skill.name ++
  ",\"type\":" ++ jsonString skill.type.toStr ++
  ",\"content\":" ++ jsonString skill.content ++
  ",\"files\":" ++ filesJson skill.files ++ "\x7d"

/-- skills.ts `computeSkillHash`. -/
def computeSkillHash (skill : Skill) : String :=
  computeContentHash (canonicalSkillJson skill)

/-- skills.ts `getSkillKey`: "type:name". -/
def getSkillKey (skill : Skill) : String :=
  skill.type.toStr ++ ":" ++ skill.name

/-- The content hash is a function of (name, type, content, files) only:
path, modification time and metadata do not enter the canonical JSON. -/
theorem computeSkillHash_congr (A A' : Skill)
    (h1 : A.name = A'.name) (h2 : A.type = A'.type)
    (h3 : A.content = A'.content) (h4 : A.files = A'.files) :
    computeSkillHash A = computeSkillHash A' := by
  rw [computeSkillHash, computeSkillHash, canonicalSkillJson,
    canonicalSkillJson, h1, h2, h3, h4]

/-! ### Recovery keys (crypto.ts `generateRecoveryKey`,
`formatRecoveryKey`, `parseRecoveryKey`) -/

/-- The 256-word recovery wordlist from crypto.ts. -/
def WORDLIST : List String :=
  ["apple", "armor", "arrow", "badge", "baker", "beach", "beast", "berry",
   "blade", "blank", "blaze", "blend", "bless", "block", "bloom", "board",
   "bonus", "boost", "bound", "brain", "brand", "brave", "bread", "break",
   "brick", "brief", "bring", "broad", "brook", "brush", "build", "burst",
   "cabin", "cable", "camel", "candy", "cargo", "carry", "catch", "cause",
   "chain", "chair", "chalk", "charm", "chase", "cheap", "check", "chess",
   "chief", "child", "chill", "claim", "clamp", "clash", "class", "clean",
   "clear", "clerk", "click", "cliff", "climb", "clock", "close", "cloth",
   "cloud", "coach", "coast", "coral", "couch", "cover", "craft", "crane",
   "crash", "crawl", "cream", "creek", "crisp", "cross", "crowd", "crown",
   "crush", "curve", "cycle", "dance", "delta", "depot", "depth", "diary",
   "digit", "dodge", "draft", "drain", "drama", "drank", "dream", "dress",
   "drift", "drill", "drink", "drive", "drown", "drums", "dusty", "dwarf",
   "eagle", "earth", "elbow", "elder", "elite", "ember", "empty", "enemy",
   "enjoy", "enter", "equal", "error", "essay", "event", "exact", "exile",
   "exist", "extra", "fable", "faith", "fancy", "fault", "feast", "fence",
   "fetch", "fever", "fiber", "field", "fifth", "fifty", "fight", "final",
   "flair", "flame", "flash", "fleet", "flesh", "fling", "float", "flock",
   "flood", "floor", "flour", "fluid", "flush", "flute", "focus", "force",
   "forge", "forth", "forum", "found", "frame", "frank", "fresh", "frost",
   "fruit", "fuels", "giant", "glass", "gleam", "glide", "globe", "glory",
   "grace", "grade", "grain", "grand", "grant", "grape", "grasp", "grass",
   "grave", "great", "green", "greet", "grief", "grill", "grind", "group",
   "grove", "guard", "guess", "guest", "guide", "guilt", "habit", "happy",
   "harsh", "haste", "haven", "heart", "heavy", "hedge", "heist", "hello",
   "honor", "horse", "hotel", "house", "human", "humor", "ideal", "image",
   "index", "inner", "input", "intro", "issue", "ivory", "jelly", "jewel",
   "joint", "joker", "jolly", "judge", "juice", "jumbo", "kayak", "khaki",
   "knife", "knock", "label", "labor", "lance", "large", "laser", "latch",
   "later", "laugh", "layer", "learn", "lease", "leave", "legal", "lemon",
   "level", "lever", "light", "limit", "linen", "links", "liver", "llama",
   "local", "lodge", "logic", "lunar", "lunch", "maker", "manor", "maple"]

/-- types.ts `RecoveryKey`. -/
structure RecoveryKey where
  words : List String
  bytes : List Nat
deriving Repr, DecidableEq

/-- String.toLowerCase for the ASCII range (all that the recovery-key
format produces), modelled at the character-list level. -/
def strToLower (s : String) : String := (s.toList.map Char.toLower).asString

/-- String.toUpperCase for the ASCII range, at the character-list level. -/
def strToUpper (s : String) : String := (s.toList.map Char.toUpper).asString

/-- Array.join("-"). -/
def joinDash : List String → String
  | [] => ""
  | [w] => w
  | w :: ws => w ++ "-" ++ joinDash ws

/-- The separator class of the split regex /[-\s]+/. -/
def sepChar (c : Char) : Bool := c == '-' || c.isWhitespace

/-- String.split(/[-\s]+/): splitting on each separator character and
later dropping empty pieces is equivalent to splitting on runs. -/
def splitSeps (s : String) : List String :=
  (s.toList.splitOnP sepChar).map List.asString

/-- crypto.ts `generateRecoveryKey`, with the 8 random bytes passed in
for `generateRandomBytes(8)`. -/
def generateRecoveryKey (rand : List Nat) : RecoveryKey :=
  ⟨rand.map fun byte => WORDLIST.getD (byte % WORDLIST.length) "", rand⟩

/-- crypto.ts `formatRecoveryKey`: upper-case and hyphen-join. -/
def formatRecoveryKey (rk : RecoveryKey) : String :=
  joinDash (rk.words.map strToUpper)

/-- crypto.ts `parseRecoveryKey`: lower-case, split, require exactly 8
wordlist members; bytes are the wordlist indices. -/
def parseRecoveryKey (wordsInput : String) : Option RecoveryKey :=
  let words := (splitSeps (strToLower wordsInput)).filter fun w => w ≠ ""
  if words.length = 8 then
    let indices := words.map fun word => WORDLIST.indexOf word
    if indices.any fun i => WORDLIST.length ≤ i then none
    else some ⟨words, indices⟩
  else none

/-- A word is parse-compatible: nonempty, case round-trips, and free of
separator characters. -/
abbrev wordOkP (w : String) : Prop :=
  w ≠ "" ∧ (w.toList.map Char.toUpper).map Char.toLower = w.toList ∧
    ∀ c ∈ w.toList, sepChar c = false

set_option maxRecDepth 100000 in
theorem wordlist_length : WORDLIST.length = 256 := by decide

set_option maxRecDepth 100000 in
theorem wordlist_ok : ∀ w ∈ WORDLIST, wordOkP w := by decide

set_option maxRecDepth 100000 in
theorem wordlist_indexOf_getD :
    ∀ b, b < 256 → WORDLIST.indexOf (WORDLIST.getD b "") = b := by decide

theorem wordlist_getD_mem (b : Nat) (h : b < 256) :
    WORDLIST.getD b "" ∈ WORDLIST := by
  rw [List.getD_eq_getElem?_getD, List.getElem?_eq_getElem
    (by rw [wordlist_length]; exact h), Option.getD_some]
  exact List.getElem_mem _

theorem toList_asString (l : List Char) : l.asString.toList = l := by
  simp [List.asString, String.toList]

theorem asString_toList (s : String) : s.toList.asString = s := by
  simp [List.asString, String.toList]

theorem toList_append (s t : String) :
    (s ++ t).toList = s.toList ++ t.toList := by
  cases s
  cases t
  rfl

theorem toList_strToLower (s : String) :
    (strToLower s).toList = s.toList.map Char.toLower := by
  rw [strToLower, toList_asString]

theorem split_lower_joinDash :
    ∀ words : List String, words ≠ [] → (∀ w ∈ words, wordOkP w) →
      ((strToLower (joinDash (words.map strToUpper))).toList).splitOnP
        sepChar = words.map String.toList := by
  intro words
  induction words with
  | nil => intro h; exact absurd rfl h
  | cons w rest ih =>
      intro _ hok
      have hw := hok w (by simp)
      cases rest with
      | nil =>
          simp only [List.map_cons, List.map_nil, joinDash]
          rw [toList_strToLower, strToUpper, toList_asString, hw.2.1]
          rw [List.splitOnP_eq_single]
          intro c hc
          rw [hw.2.2 c hc]
          simp
      | cons x rest2 =>
          simp only [List.map_cons, joinDash]
          rw [toList_strToLower, toList_append, toList_append]
          have hdash : "-".toList = ['-'] := rfl
          rw [hdash]
          simp only [List.map_append, List.map_cons, List.map_nil]
          rw [strToUpper, toList_asString, hw.2.1]
          have htail :
              List.map Char.toLower (joinDash (strToUpper x ::
                rest2.map strToUpper)).toList =
              (strToLower (joinDash ((x :: rest2).map strToUpper))).toList := by
            rw [toList_strToLower]; simp
          rw [show Char.toLower '-' = '-' from rfl]
          rw [List.append_assoc, List.singleton_append]
          rw [List.splitOnP_first _ _ ?hnp '-' ?hsep]
          case hnp =>
            intro c hc
            rw [hw.2.2 c hc]
            simp
          case hsep => rfl
          rw [htail, ih (by simp) fun y hy => hok y (by simp [hy])]
          simp

/-- Recovery-key round trip: parsing the displayed form returns the same
words and bytes. -/
theorem parseRecoveryKey_format (rand : List Nat) (hlen : rand.length = 8)
    (hb : ∀ b ∈ rand, b < 256) :
    parseRecoveryKey (formatRecoveryKey (generateRecoveryKey rand)) =
      some (generateRecoveryKey rand) := by
  have hmod : ∀ b ∈ rand, b % WORDLIST.length = b := fun b hbm =>
    Nat.mod_eq_of_lt (by rw [wordlist_length]; exact hb b hbm)
  have hwords : (generateRecoveryKey rand).words =
      rand.map fun b => WORDLIST.getD b "" := by
    rw [generateRecoveryKey]
    exact List.map_congr_left fun b hbm => by rw [hmod b hbm]
  have hmem : ∀ w ∈ (generateRecoveryKey rand).words, w ∈ WORDLIST := by
    rw [hwords]
    intro w hwm
    obtain ⟨b, hbm, rfl⟩ := List.mem_map.mp hwm
    exact wordlist_getD_mem b (hb b hbm)
  have hok : ∀ w ∈ (generateRecoveryKey rand).words, wordOkP w :=
    fun w hwm => wordlist_ok w (hmem w hwm)
  have hne : (generateRecoveryKey rand).words ≠ [] := by
    rw [hwords]
    intro hcon
    have := congrArg List.length hcon
    simp [hlen] at this
  rw [parseRecoveryKey, formatRecoveryKey, splitSeps,
    split_lower_joinDash _ hne hok]
  rw [List.map_map]
  have hmapst : ((generateRecoveryKey rand).words.map
      (List.asString ∘ String.toList)) = (generateRecoveryKey rand).words := by
    rw [show List.asString ∘ String.toList = id from funext asString_toList,
      List.map_id]
  rw [hmapst]
  rw [List.filter_eq_self.mpr fun w hwm => by
    simpa using (hok w hwm).1]
  have hwlen : (generateRecoveryKey rand).words.length = 8 := by
    rw [hwords, List.length_map, hlen]
  rw [if_pos hwlen]
  have hidx : (generateRecoveryKey rand).words.map
      (fun word => WORDLIST.indexOf word) = rand := by
    rw [hwords, List.map_map]
    have : rand.map ((fun word => WORDLIST.indexOf word) ∘
        fun b => WORDLIST.getD b "") = rand.map id :=
      List.map_congr_left fun b hbm => by
        simp only [Function.comp_apply, id]
        exact wordlist_indexOf_getD b (hb b hbm)
    rw [this, List.map_id]
  rw [hidx]
  have hany : (rand.any fun i => decide (WORDLIST.length ≤ i)) = false := by
    rw [List.any_eq_false]
    intro b hbm
    simp only [decide_eq_true_eq, not_le]
    rw [wordlist_length]
    exact hb b hbm
  simp only [hany, Bool.false_eq_true, if_false]
  rw [generateRecoveryKey]

/-! ### Server model (db/schema.ts, db/index.ts, routes/skills.ts), for a
single authenticated user; `defaultNow()` is a logical clock `now` and
uuids are drawn from a counter `nextId`. -/

/-- schema.ts `skills` row (single-user view). -/
structure SkillRow where
  id : Nat
  skillKey : String
  currentHash : Option String
  updatedAt : Nat
deriving Repr, DecidableEq

/-- schema.ts `skill_versions` row (primary key (skillId, hash)). -/
structure VersionRow where
  skillId : Nat
  hash : String
  encryptedData : String
  iv : String
  tag : String
  parentHash : Option String
  message : Option String
  createdAt : Nat
deriving Repr, DecidableEq

/-- The server database state. -/
structure ServerState where
  skills : List SkillRow
  versions : List VersionRow
  nextId : Nat
  now : Nat
deriving Repr, DecidableEq

/-- db `findSkillByKey` (`result[0]` of the filtered select). -/
def findSkillByKey (st : ServerState) (skillKey : String) : Option SkillRow :=
  (st.skills.filter fun s => s.skillKey == skillKey).head?

/-- db `createSkill` (insert with fresh id, null currentHash). -/
def createSkill (st : ServerState) (skillKey : String) :
    SkillRow × ServerState :=
  let row : SkillRow := ⟨st.nextId, skillKey, none, st.now⟩
  (row, { st with skills := st.skills ++ [row], nextId := st.nextId + 1 })

/-- db `updateSkillCurrentHash` (sets currentHash and updatedAt). -/
def updateSkillCurrentHash (st : ServerState) (skillId : Nat) (hash : String) :
    ServerState :=
  { st with skills := st.skills.map fun s =>
      if s.id == skillId then
        { s with currentHash := some hash, updatedAt := st.now }
      else s }

/-- db `findSkillVersion`. -/
def findSkillVersion (st : ServerState) (skillId : Nat) (hash : String) :
    Option VersionRow :=
  (st.versions.filter fun v => v.skillId == skillId && v.hash == hash).head?

/-- db `createSkillVersion`: insert, `onConflictDoUpdate` on the primary
key (skillId, hash) with set { encryptedData, iv, tag } — parentHash,
message and createdAt are NOT touched on conflict; `.returning()` gives
the inserted or updated row. -/
def createSkillVersion (st : ServerState) (skillId : Nat)
    (hash encryptedData iv tag : String)
    (parentHash message : Option String) : VersionRow × ServerState :=
  match findSkillVersion st skillId hash with
  | some v0 =>
      let v' := { v0 with encryptedData := encryptedData, iv := iv, tag := tag }
      (v', { st with versions := st.versions.map fun v =>
          if v.skillId == skillId && v.hash == hash then
            { v with encryptedData := encryptedData, iv := iv, tag := tag }
          else v })
  | none =>
      let v : VersionRow :=
        ⟨skillId, hash, encryptedData, iv, tag, parentHash, message, st.now⟩
      (v, { st with versions := st.versions ++ [v] })

/-- Stable insertion into a list sorted by `le`. -/
def insertBy {α : Type} (le : α → α → Bool) (a : α) : List α → List α
  | [] => [a]
  | b :: rest => if le b a then b :: insertBy le a rest else a :: b :: rest

/-- Stable insertion sort (models SQL ORDER BY). -/
def sortBy {α : Type} (le : α → α → Bool) (l : List α) : List α :=
  l.foldr (insertBy le) []

/-- db `listSkillVersions`: the user's versions newest-first by creation
time, limited. -/
def listSkillVersions (st : ServerState) (skillId : Nat) (limit : Nat) :
    List VersionRow :=
  ((sortBy (fun a b => b.createdAt ≤ a.createdAt)
    (st.versions.filter fun v => v.skillId == skillId))).take limit

/-- Body of POST /skills/:skillKey/versions. -/
structure PushBody where
  hash : String
  encryptedData : String
  iv : String
  tag : String
  message : Option String
deriving Repr, DecidableEq

/-- Response of POST /skills/:skillKey/versions. -/
inductive PushResp
  | badRequest
  | ok (skillId : Nat) (hash : String) (parentHash : Option String)
      (createdAt : Nat)
deriving Repr, DecidableEq

/-- routes/skills.ts POST /skills/:skillKey/versions: find-or-create the
skill, take its currentHash as the new version's parentHash, upsert the
version, then update the current pointer (empty strings are falsy, hence
the missing-field check). -/
def pushVersionRoute (st : ServerState) (skillKey : String)
    (body : PushBody) : PushResp × ServerState :=
  if body.hash = "" ∨ body.encryptedData = "" ∨ body.iv = "" ∨ body.tag = ""
  then (.badRequest, st)
  else
    let found := findSkillByKey st skillKey
    let skillAndSt :=
      match found with
      | some s => (s, st)
      | none => createSkill st skillKey
    let skill := skillAndSt.1
    let st1 := skillAndSt.2
    let parentHash := skill.currentHash
    let vr := createSkillVersion st1 skill.id body.hash body.encryptedData
      body.iv body.tag parentHash body.message
    let st3 := updateSkillCurrentHash vr.2 skill.id body.hash
    (.ok skill.id vr.1.hash vr.1.parentHash vr.1.createdAt, st3)

/-- Response of GET /skills/:skillKey. -/
inductive GetSkillResp
  | notFound (message : String)
  | found (v : VersionRow)
deriving Repr, DecidableEq

/-- routes/skills.ts GET /skills/:skillKey: serve the version that the
skill's current-hash pointer names (the pointer, not the version list,
decides). -/
def getSkillRoute (st : ServerState) (skillKey : String) : GetSkillResp :=
  match findSkillByKey st skillKey with
  | none => .notFound "Skill not found"
  | some skill =>
      match skill.currentHash with
      | none => .notFound "Skill has no versions"
      | some h =>
          match findSkillVersion st skill.id h with
          | none => .notFound "Current version not found"
          | some v => .found v

/-- One entry of GET /skills (listUserSkills). -/
structure RemoteSkill where
  skillKey : String
  currentHash : Option String
  updatedAt : String
deriving Repr, DecidableEq

/-- routes/skills.ts GET /skills. -/
def listSkillsRoute (st : ServerState) : List RemoteSkill :=
  (sortBy (fun a b => b.updatedAt ≤ a.updatedAt) st.skills).map fun s =>
    ⟨s.skillKey, s.currentHash, toString s.updatedAt⟩

/-- Number of stored versions for a (skill, hash) pair. -/
def countVersions (st : ServerState) (sid : Nat) (h : String) : Nat :=
  (st.versions.filter fun v => v.skillId == sid && v.hash == h).length

/-! ### Server lemmas -/

theorem findSkillByKey_createSkill (st : ServerState) (key : String)
    (h : findSkillByKey st key = none) :
    findSkillByKey (createSkill st key).2 key =
      some (createSkill st key).1 := by
  rw [findSkillByKey] at h
  rw [createSkill, findSkillByKey]
  simp only [List.filter_append, List.head?_eq_none_iff.mp h,
    List.nil_append]
  simp [List.filter]

theorem versions_createSkill (st : ServerState) (key : String) :
    (createSkill st key).2.versions = st.versions := rfl

theorem versions_updateSkillCurrentHash (st : ServerState) (sid : Nat)
    (h : String) : (updateSkillCurrentHash st sid h).versions = st.versions :=
  rfl

theorem findSkillVersion_updateSkillCurrentHash (st : ServerState)
    (sid : Nat) (h : String) (sid' : Nat) (h' : String) :
    findSkillVersion (updateSkillCurrentHash st sid h) sid' h' =
      findSkillVersion st sid' h' := rfl

theorem countVersions_updateSkillCurrentHash (st : ServerState)
    (sid : Nat) (h : String) (sid' : Nat) (h' : String) :
    countVersions (updateSkillCurrentHash st sid h) sid' h' =
      countVersions st sid' h' := rfl

theorem skills_createSkillVersion (st : ServerState) (sid : Nat)
    (h ed iv tag : String) (p m : Option String) :
    (createSkillVersion st sid h ed iv tag p m).2.skills = st.skills := by
  rw [createSkillVersion]
  cases findSkillVersion st sid h <;> rfl

theorem findSkillByKey_updateSkillCurrentHash (st : ServerState)
    (key : String) (sid : Nat) (h : String) (s : SkillRow)
    (hfind : findSkillByKey st key = some s) :
    findSkillByKey (updateSkillCurrentHash st sid h) key =
      some (if s.id == sid then
        { s with currentHash := some h, updatedAt := st.now } else s) := by
  rw [findSkillByKey] at hfind
  rw [updateSkillCurrentHash, findSkillByKey]
  simp only
  rw [List.filter_map, List.filter_congr fun x _ => ?hpred, List.head?_map,
    hfind, Option.map_some']
  case hpred =>
    simp only [Function.comp_apply]
    by_cases hc : x.id == sid <;> simp [hc]

theorem createSkillVersion_insert (st : ServerState) (sid : Nat)
    (h ed iv tag : String) (p m : Option String)
    (hnone : findSkillVersion st sid h = none) :
    createSkillVersion st sid h ed iv tag p m =
      (⟨sid, h, ed, iv, tag, p, m, st.now⟩,
       { st with versions :=
          st.versions ++ [⟨sid, h, ed, iv, tag, p, m, st.now⟩] }) := by
  rw [createSkillVersion, hnone]

theorem findSkillVersion_append_self (st : ServerState) (v : VersionRow)
    (hnone : findSkillVersion st v.skillId v.hash = none) :
    findSkillVersion { st with versions := st.versions ++ [v] }
      v.skillId v.hash = some v := by
  rw [findSkillVersion] at hnone
  rw [findSkillVersion]
  simp only [List.filter_append, List.head?_eq_none_iff.mp hnone,
    List.nil_append]
  simp [List.filter]

theorem countVersions_append_self (st : ServerState) (v : VersionRow)
    (hnone : findSkillVersion st v.skillId v.hash = none) :
    countVersions { st with versions := st.versions ++ [v] }
      v.skillId v.hash = 1 := by
  rw [findSkillVersion] at hnone
  rw [countVersions]
  simp only [List.filter_append, List.head?_eq_none_iff.mp hnone,
    List.nil_append]
  simp [List.filter]

theorem createSkillVersion_conflict (st : ServerState) (sid : Nat)
    (h ed iv tag : String) (p m : Option String) (v0 : VersionRow)
    (hfound : findSkillVersion st sid h = some v0) :
    createSkillVersion st sid h ed iv tag p m =
      ({ v0 with encryptedData := ed, iv := iv, tag := tag },
       { st with versions := st.versions.map fun v =>
          if v.skillId == sid && v.hash == h then
            { v with encryptedData := ed, iv := iv, tag := tag }
          else v }) := by
  rw [createSkillVersion, hfound]

theorem findSkillVersion_conflict_state (st : ServerState) (sid : Nat)
    (h ed iv tag : String) (v0 : VersionRow)
    (hfound : findSkillVersion st sid h = some v0) :
    findSkillVersion
      { st with versions := st.versions.map fun v =>
          if v.skillId == sid && v.hash == h then
            { v with encryptedData := ed, iv := iv, tag := tag }
          else v } sid h =
      some { v0 with encryptedData := ed, iv := iv, tag := tag } := by
  rw [findSkillVersion] at hfound
  rw [findSkillVersion]
  simp only
  rw [List.filter_map, List.filter_congr fun x _ => ?hpred, List.head?_map,
    hfound, Option.map_some']
  · have hx : (v0.skillId == sid && v0.hash == h) = true := by
      have hcons := List.eq_cons_of_mem_head? (Option.mem_def.mpr hfound)
      have hmem : v0 ∈ st.versions.filter
          fun v => v.skillId == sid && v.hash == h := by
        rw [hcons]; simp
      exact (List.mem_filter.mp hmem).2
    rw [hx]
    simp
  case hpred =>
    simp only [Function.comp_apply]
    by_cases hc : x.skillId == sid && x.hash == h <;> simp [hc]

theorem countVersions_conflict_state (st : ServerState) (sid : Nat)
    (h ed iv tag : String) (sid' : Nat) (h' : String) :
    countVersions
      { st with versions := st.versions.map fun v =>
          if v.skillId == sid && v.hash == h then
            { v with encryptedData := ed, iv := iv, tag := tag }
          else v } sid' h' = countVersions st sid' h' := by
  rw [countVersions, countVersions]
  simp only
  rw [List.filter_map, List.filter_congr fun x _ => ?hpred, List.length_map]
  case hpred =>
    simp only [Function.comp_apply]
    by_cases hc : x.skillId == sid && x.hash == h <;> simp [hc]

theorem findSkillByKey_congr (key : String) {st st' : ServerState}
    (h : st.skills = st'.skills) :
    findSkillByKey st key = findSkillByKey st' key := by
  rw [findSkillByKey, findSkillByKey, h]

theorem findSkillVersion_congr (sid : Nat) (h' : String)
    {st st' : ServerState} (hv : st.versions = st'.versions) :
    findSkillVersion st sid h' = findSkillVersion st' sid h' := by
  rw [findSkillVersion, findSkillVersion, hv]

theorem countVersions_congr (sid : Nat) (h' : String)
    {st st' : ServerState} (hv : st.versions = st'.versions) :
    countVersions st sid h' = countVersions st' sid h' := by
  rw [countVersions, countVersions, hv]

/-- Push of a fresh content hash for an existing skill: the version is
inserted with parentHash = the skill's current hash, and the pointer is
then updated. -/
theorem pushVersionRoute_found_fresh (st : ServerState) (key : String)
    (body : PushBody) (s : SkillRow)
    (hv1 : body.hash ≠ "") (hv2 : body.encryptedData ≠ "")
    (hv3 : body.iv ≠ "") (hv4 : body.tag ≠ "")
    (hfound : findSkillByKey st key = some s)
    (hfresh : findSkillVersion st s.id body.hash = none) :
    pushVersionRoute st key body =
      (.ok s.id body.hash s.currentHash st.now,
       updateSkillCurrentHash
         { st with versions := st.versions ++
            [⟨s.id, body.hash, body.encryptedData, body.iv, body.tag,
              s.currentHash, body.message, st.now⟩] } s.id body.hash) := by
  rw [pushVersionRoute, if_neg (by simp [hv1, hv2, hv3, hv4]), hfound]
  simp only
  rw [createSkillVersion_insert _ _ _ _ _ _ _ _ hfresh]

/-- Push of a fresh content hash for an absent skill: the skill row is
created (null currentHash), the version inserted with parentHash = null,
and the pointer updated. -/
theorem pushVersionRoute_notfound (st : ServerState) (key : String)
    (body : PushBody)
    (hv1 : body.hash ≠ "") (hv2 : body.encryptedData ≠ "")
    (hv3 : body.iv ≠ "") (hv4 : body.tag ≠ "")
    (hnf : findSkillByKey st key = none)
    (hid : ∀ s ∈ st.skills, s.id < st.nextId)
    (hfk : ∀ v ∈ st.versions, ∃ s ∈ st.skills, v.skillId = s.id) :
    pushVersionRoute st key body =
      (.ok st.nextId body.hash none st.now,
       updateSkillCurrentHash
         ⟨st.skills ++ [⟨st.nextId, key, none, st.now⟩],
          st.versions ++
            [⟨st.nextId, body.hash, body.encryptedData, body.iv, body.tag,
              none, body.message, st.now⟩],
          st.nextId + 1, st.now⟩ st.nextId body.hash) := by
  rw [pushVersionRoute, if_neg (by simp [hv1, hv2, hv3, hv4]), hnf]
  simp only [createSkill]
  have hfresh : findSkillVersion
      ⟨st.skills ++ [⟨st.nextId, key, none, st.now⟩], st.versions,
       st.nextId + 1, st.now⟩ st.nextId body.hash = none := by
    rw [findSkillVersion]
    simp only
    rw [List.head?_eq_none_iff, List.filter_eq_nil_iff]
    intro v hv
    obtain ⟨s, hs, heq⟩ := hfk v hv
    have := hid s hs
    simp only [Bool.and_eq_true, beq_iff_eq]
    intro hcon
    omega
  rw [createSkillVersion_insert _ _ _ _ _ _ _ _ hfresh]

/-- Push of an already-stored content hash ("conflict"): the upsert only
refreshes encryptedData/iv/tag of the stored row; the route still
re-issues the pointer update, and the response carries the stored row's
original parentHash and createdAt. -/
theorem pushVersionRoute_found_conflict (st : ServerState) (key : String)
    (body : PushBody) (s : SkillRow) (v0 : VersionRow)
    (hv1 : body.hash ≠ "") (hv2 : body.encryptedData ≠ "")
    (hv3 : body.iv ≠ "") (hv4 : body.tag ≠ "")
    (hfound : findSkillByKey st key = some s)
    (hconf : findSkillVersion st s.id body.hash = some v0) :
    pushVersionRoute st key body =
      (.ok s.id v0.hash v0.parentHash v0.createdAt,
       updateSkillCurrentHash
         { st with versions := st.versions.map fun v =>
             if v.skillId == s.id && v.hash == body.hash then
               { v with encryptedData := body.encryptedData, iv := body.iv, tag := body.tag }
             else v } s.id body.hash) := by
  rw [pushVersionRoute, if_neg (by simp [hv1, hv2, hv3, hv4]), hfound]
  simp only
  rw [createSkillVersion_conflict _ _ _ _ _ _ _ _ _ hconf]

theorem findSkillByKey_append (st : ServerState) (key : String)
    (r : SkillRow) (hr : r.skillKey = key)
    (hnone : findSkillByKey st key = none) (st' : ServerState)
    (hsk : st'.skills = st.skills ++ [r]) :
    findSkillByKey st' key = some r := by
  rw [findSkillByKey] at hnone
  rw [findSkillByKey, hsk]
  simp only [List.filter_append, List.head?_eq_none_iff.mp hnone,
    List.nil_append]
  simp [List.filter, hr]

/-- Fresh-hash push: the stored version's parentHash is the skill's
current hash observed before the push (none when the skill is new), and
the pointer afterwards names the pushed hash. -/
theorem pushVersion_fresh_spec (st : ServerState) (skillKey : String)
    (body : PushBody)
    (hv1 : body.hash ≠ "") (hv2 : body.encryptedData ≠ "")
    (hv3 : body.iv ≠ "") (hv4 : body.tag ≠ "")
    (hid : ∀ s ∈ st.skills, s.id < st.nextId)
    (hfk : ∀ v ∈ st.versions, ∃ s ∈ st.skills, v.skillId = s.id)
    (hfresh : ∀ s, findSkillByKey st skillKey = some s →
      findSkillVersion st s.id body.hash = none) :
    ∃ v : VersionRow,
      findSkillVersion (pushVersionRoute st skillKey body).2 v.skillId
        body.hash = some v ∧
      v.hash = body.hash ∧
      v.parentHash = (findSkillByKey st skillKey).bind SkillRow.currentHash ∧
      ∃ s', findSkillByKey (pushVersionRoute st skillKey body).2 skillKey =
          some s' ∧ s'.currentHash = some body.hash ∧ s'.id = v.skillId := by
  cases hfind : findSkillByKey st skillKey with
  | some s =>
      rw [pushVersionRoute_found_fresh st skillKey body s hv1 hv2 hv3 hv4
        hfind (hfresh s hfind)]
      refine ⟨⟨s.id, body.hash, body.encryptedData, body.iv, body.tag,
        s.currentHash, body.message, st.now⟩, ?_, rfl, rfl, ?_⟩
      · rw [findSkillVersion_updateSkillCurrentHash]
        exact findSkillVersion_append_self st _ (hfresh s hfind)
      · have hf2 : findSkillByKey
            { st with versions := st.versions ++
              [⟨s.id, body.hash, body.encryptedData, body.iv, body.tag,
                s.currentHash, body.message, st.now⟩] } skillKey =
            some s := hfind
        rw [findSkillByKey_updateSkillCurrentHash _ _ _ _ s hf2]
        refine ⟨_, rfl, ?_, ?_⟩
        · rw [if_pos (by simp)]
        · rw [if_pos (by simp)]
  | none =>
      rw [pushVersionRoute_notfound st skillKey body hv1 hv2 hv3 hv4
        hfind hid hfk]
      refine ⟨⟨st.nextId, body.hash, body.encryptedData, body.iv, body.tag,
        none, body.message, st.now⟩, ?_, rfl, rfl, ?_⟩
      · rw [findSkillVersion_updateSkillCurrentHash]
        apply findSkillVersion_append_self
          ⟨st.skills ++ [⟨st.nextId, skillKey, none, st.now⟩], st.versions,
           st.nextId + 1, st.now⟩
        rw [findSkillVersion]
        simp only
        rw [List.head?_eq_none_iff, List.filter_eq_nil_iff]
        intro v hv
        obtain ⟨s, hs, heq⟩ := hfk v hv
        have := hid s hs
        simp only [Bool.and_eq_true, beq_iff_eq]
        intro hcon
        omega
      · have hf2 : findSkillByKey
            ⟨st.skills ++ [⟨st.nextId, skillKey, none, st.now⟩],
             st.versions ++
              [⟨st.nextId, body.hash, body.encryptedData, body.iv, body.tag,
                none, body.message, st.now⟩],
             st.nextId + 1, st.now⟩ skillKey =
            some ⟨st.nextId, skillKey, none, st.now⟩ :=
          findSkillByKey_append st skillKey _ rfl hfind _ rfl
        rw [findSkillByKey_updateSkillCurrentHash _ _ _ _ _ hf2]
        refine ⟨_, rfl, ?_, ?_⟩
        · rw [if_pos (by simp)]
        · rw [if_pos (by simp)]

/-- Pushing the same content hash twice: after the second push there is
still exactly one stored version for that hash; its envelope carries the
second push's encryptedData/iv/tag, its message is still the first
push's, and the pointer names the hash. -/
theorem pushVersion_idempotent_spec (st : ServerState) (skillKey : String)
    (body1 body2 : PushBody)
    (ha1 : body1.hash ≠ "") (ha2 : body1.encryptedData ≠ "")
    (ha3 : body1.iv ≠ "") (ha4 : body1.tag ≠ "")
    (hb2 : body2.encryptedData ≠ "") (hb3 : body2.iv ≠ "")
    (hb4 : body2.tag ≠ "")
    (hsame : body2.hash = body1.hash)
    (hid : ∀ s ∈ st.skills, s.id < st.nextId)
    (hfk : ∀ v ∈ st.versions, ∃ s ∈ st.skills, v.skillId = s.id)
    (hfresh : ∀ s, findSkillByKey st skillKey = some s →
      findSkillVersion st s.id body1.hash = none) :
    ∃ s' : SkillRow,
      findSkillByKey
        (pushVersionRoute (pushVersionRoute st skillKey body1).2 skillKey
          body2).2 skillKey = some s' ∧
      s'.currentHash = some body1.hash ∧
      countVersions
        (pushVersionRoute (pushVersionRoute st skillKey body1).2 skillKey
          body2).2 s'.id body1.hash = 1 ∧
      ∃ v : VersionRow,
        findSkillVersion
          (pushVersionRoute (pushVersionRoute st skillKey body1).2 skillKey
            body2).2 s'.id body1.hash = some v ∧
        v.encryptedData = body2.encryptedData ∧ v.iv = body2.iv ∧
        v.tag = body2.tag ∧ v.message = body1.message := by
  have hb1 : body2.hash ≠ "" := by rw [hsame]; exact ha1
  cases hfind : findSkillByKey st skillKey with
  | some s =>
      rw [pushVersionRoute_found_fresh st skillKey body1 s ha1 ha2 ha3 ha4
        hfind (hfresh s hfind)]
      set v1 : VersionRow := ⟨s.id, body1.hash, body1.encryptedData,
        body1.iv, body1.tag, s.currentHash, body1.message, st.now⟩ with hv1def
      set stA : ServerState :=
        { st with versions := st.versions ++ [v1] } with hstAdef
      -- state after push 1 = updateSkillCurrentHash stA s.id body1.hash
      have hf1 : findSkillByKey stA skillKey = some s := hfind
      have hfB : findSkillByKey (updateSkillCurrentHash stA s.id body1.hash)
          skillKey = some { s with currentHash := some body1.hash, updatedAt := stA.now } := by
        rw [findSkillByKey_updateSkillCurrentHash _ _ _ _ s hf1]
        rw [if_pos (by simp)]
      have hvB : findSkillVersion (updateSkillCurrentHash stA s.id body1.hash)
          s.id body2.hash = some v1 := by
        rw [findSkillVersion_updateSkillCurrentHash, hsame]
        exact findSkillVersion_append_self st v1 (hfresh s hfind)
      rw [pushVersionRoute_found_conflict _ skillKey body2 _ v1 hb1 hb2 hb3
        hb4 hfB hvB]
      set stB := updateSkillCurrentHash stA s.id body1.hash with hstBdef
      set updv : VersionRow → VersionRow := fun v =>
        if v.skillId == ({ s with currentHash := some body1.hash, updatedAt := stA.now } : SkillRow).id && v.hash == body2.hash then
          { v with encryptedData := body2.encryptedData, iv := body2.iv, tag := body2.tag }
        else v with hupdv
      set stC : ServerState :=
        { stB with versions := stB.versions.map updv } with hstCdef
      have hfC : findSkillByKey stC skillKey =
          some { s with currentHash := some body1.hash, updatedAt := stA.now } := hfB
      have hfD : findSkillByKey (updateSkillCurrentHash stC
          ({ s with currentHash := some body1.hash, updatedAt := stA.now } : SkillRow).id body2.hash) skillKey =
          some { s with currentHash := some body2.hash, updatedAt := stC.now } := by
        rw [findSkillByKey_updateSkillCurrentHash _ _ _ _ _ hfC]
        rw [if_pos (by simp)]
      refine ⟨_, hfD, ?_, ?_, ?_⟩
      · show some body2.hash = some body1.hash
        rw [hsame]
      · rw [countVersions_updateSkillCurrentHash, hstCdef, hupdv]
        have := countVersions_conflict_state stB s.id body2.hash
          body2.encryptedData body2.iv body2.tag s.id body1.hash
        simp only at this ⊢
        rw [this, hstBdef, countVersions_updateSkillCurrentHash]
        exact countVersions_append_self st v1 (hfresh s hfind)
      · refine ⟨{ v1 with encryptedData := body2.encryptedData, iv := body2.iv, tag := body2.tag }, ?_, rfl, rfl, rfl, rfl⟩
        rw [findSkillVersion_updateSkillCurrentHash, hstCdef, hupdv]
        have := findSkillVersion_conflict_state stB s.id body2.hash
          body2.encryptedData body2.iv body2.tag v1 hvB
        simp only at this ⊢
        rw [hsame] at this
        rw [hsame]
        exact this
  | none =>
      rw [pushVersionRoute_notfound st skillKey body1 ha1 ha2 ha3 ha4
        hfind hid hfk]
      set r : SkillRow := ⟨st.nextId, skillKey, none, st.now⟩ with hrdef
      set v1 : VersionRow := ⟨st.nextId, body1.hash, body1.encryptedData,
        body1.iv, body1.tag, none, body1.message, st.now⟩ with hv1def
      set stA : ServerState :=
        ⟨st.skills ++ [r], st.versions ++ [v1], st.nextId + 1, st.now⟩
        with hstAdef
      have hnA : findSkillVersion ⟨st.skills ++ [r], st.versions,
          st.nextId + 1, st.now⟩ st.nextId body1.hash = none := by
        rw [findSkillVersion]
        simp only
        rw [List.head?_eq_none_iff, List.filter_eq_nil_iff]
        intro v hv
        obtain ⟨s, hs, heq⟩ := hfk v hv
        have := hid s hs
        simp only [Bool.and_eq_true, beq_iff_eq]
        intro hcon
        omega
      have hf1 : findSkillByKey stA skillKey = some r :=
        findSkillByKey_append st skillKey r rfl hfind stA rfl
      have hfB : findSkillByKey (updateSkillCurrentHash stA st.nextId
          body1.hash) skillKey =
          some { r with currentHash := some body1.hash, updatedAt := stA.now } := by
        rw [findSkillByKey_updateSkillCurrentHash _ _ _ _ r hf1]
        rw [if_pos (by simp [hrdef])]
      have hvB : findSkillVersion (updateSkillCurrentHash stA st.nextId
          body1.hash) st.nextId body2.hash = some v1 := by
        rw [findSkillVersion_updateSkillCurrentHash, hsame]
        exact findSkillVersion_append_self
          ⟨st.skills ++ [r], st.versions, st.nextId + 1, st.now⟩ v1 hnA
      rw [pushVersionRoute_found_conflict _ skillKey body2 _ v1 hb1 hb2 hb3
        hb4 hfB hvB]
      set stB := updateSkillCurrentHash stA st.nextId body1.hash with hstBdef
      set updv : VersionRow → VersionRow := fun v =>
        if v.skillId == ({ r with currentHash := some body1.hash, updatedAt := stA.now } : SkillRow).id && v.hash == body2.hash then
          { v with encryptedData := body2.encryptedData, iv := body2.iv, tag := body2.tag }
        else v with hupdv
      set stC : ServerState :=
        { stB with versions := stB.versions.map updv } with hstCdef
      have hfC : findSkillByKey stC skillKey =
          some { r with currentHash := some body1.hash, updatedAt := stA.now } := hfB
      have hfD : findSkillByKey (updateSkillCurrentHash stC
          ({ r with currentHash := some body1.hash, updatedAt := stA.now } : SkillRow).id body2.hash) skillKey =
          some { r with currentHash := some body2.hash, updatedAt := stC.now } := by
        rw [findSkillByKey_updateSkillCurrentHash _ _ _ _ _ hfC]
        rw [if_pos (by simp)]
      refine ⟨_, hfD, ?_, ?_, ?_⟩
      · show some body2.hash = some body1.hash
        rw [hsame]
      · rw [countVersions_updateSkillCurrentHash, hstCdef, hupdv]
        have := countVersions_conflict_state stB st.nextId body2.hash
          body2.encryptedData body2.iv body2.tag st.nextId body1.hash
        simp only [hrdef] at this ⊢
        rw [this, hstBdef, countVersions_updateSkillCurrentHash]
        exact countVersions_append_self
          ⟨st.skills ++ [r], st.versions, st.nextId + 1, st.now⟩ v1 hnA
      · refine ⟨{ v1 with encryptedData := body2.encryptedData, iv := body2.iv, tag := body2.tag }, ?_, rfl, rfl, rfl, rfl⟩
        rw [findSkillVersion_updateSkillCurrentHash, hstCdef, hupdv]
        have := findSkillVersion_conflict_state stB st.nextId body2.hash
          body2.encryptedData body2.iv body2.tag v1 hvB
        simp only [hrdef] at this ⊢
        rw [hsame] at this
        rw [hsame]
        exact this

/-! ### Client sync model (cli sync.ts: sync index, hashContent,
encryptSkill, pushSkills, pullSkills, getSyncStatus).  Network calls are
oracles passed in as functions; the emitted calls are returned as a
trace. -/

/-- JS ToInt32: wrap an integer into the signed 32-bit range. -/
def toInt32 (n : Int) : Int := (n + 2 ^ 31) % 2 ^ 32 - 2 ^ 31

/-- One step of sync.ts `hashContent`: `(hash << 5) - hash + code`, with
the JS bitwise coercions to a signed 32-bit integer. -/
def hashStep (h : Int) (code : Nat) : Int :=
  toInt32 (toInt32 (h * 32) - h + code)

/-- Fuel-driven hex digits of a natural number, most significant first. -/
def natHexAux : Nat → Nat → List Char
  | 0, _ => []
  | f + 1, n => if n = 0 then [] else natHexAux f (n / 16) ++ [hexDigit (n % 16)]

/-- Number.prototype.toString(16) on an integer. -/
def intToHex (i : Int) : String :=
  if i < 0 then "-" ++ (natHexAux 64 i.natAbs).asString
  else if i = 0 then "0"
  else (natHexAux 64 i.toNat).asString

/-- sync.ts `hashContent`: 32-bit rolling hash of the characters, hex
encoded (character codes at code-point granularity). -/
def hashContent (content : String) : String :=
  intToHex (content.toList.foldl (fun h c => hashStep h c.toNat) 0)

/-- sync.ts `SyncIndex` per-skill entry. -/
structure SyncEntry where
  hash : String
  blobId : Option String
  localHash : String
  remoteUpdatedAt : String
deriving Repr, DecidableEq

/-- sync.ts `SyncIndex` (the JS object modelled as an ordered
association list). -/
structure SyncIndex where
  skills : List (String × SyncEntry)
  lastSyncAt : String
deriving Repr, DecidableEq

/-- `index.skills[skillKey]`. -/
def lookupIndex (skills : List (String × SyncEntry)) (key : String) :
    Option SyncEntry :=
  (skills.find? fun p => p.1 == key).map Prod.snd

/-- `acc[key] = entry`: replace in place, or append a new key. -/
def setEntry : List (String × SyncEntry) → String → SyncEntry →
    List (String × SyncEntry)
  | [], k, e => [(k, e)]
  | (k', e') :: rest, k, e =>
      if k' == k then (k', e) :: rest else (k', e') :: setEntry rest k e

/-- sync.ts `encryptSkill` payload: JSON.stringify of the object literal
(name, content, path, modifiedAt, type, files); JSON.stringify omits the
`files` key when the value is undefined. -/
def skillPayloadJson (skill : Skill) : String :=
  "\x7b\"name\":" ++ jsonString skill.name ++
  ",\"content\":" ++ jsonString skill.content ++
  ",\"path\":" ++ jsonString skill.path ++
  ",\"modifiedAt\":" ++ jsonString skill.modifiedAt ++
  ",\"type\":" ++ jsonString skill.type.toStr ++
  (match skill.files with
   | none => ""
   | some fs =>
       ",\"files\":[" ++ String.intercalate "," (fs.map fileJson) ++ "]") ++
  "\x7d"

/-- Result of sync.ts `encryptSkill`. -/
structure EncryptedSkill where
  encryptedData : String
  iv : String
  tag : String
deriving Repr, DecidableEq

/-- sync.ts `encryptSkill`. -/
def encryptSkill (skill : Skill) (masterKey ivRand : List Nat) :
    EncryptedSkill :=
  let r := encryptString (skillPayloadJson skill) masterKey ivRand
  ⟨r.ciphertext, r.iv, r.tag⟩

/-- The arguments of one api.pushSkillVersion network write. -/
structure ApiPushCall where
  skillKey : String
  hash : String
  encryptedData : String
  iv : String
  tag : String
  message : Option String
deriving Repr, DecidableEq

/-- Per-skill outcome inside pushSkills. -/
inductive PushOutcome
  | skipped
  | success (skillKey hash localHash remoteUpdatedAt : String)
  | failure (message : String)
deriving Repr, DecidableEq

/-- The body of the per-skill Promise.all closure in sync.ts
`pushSkills`; also returns the network calls it makes. -/
def pushOneSkill (index : SyncIndex) (masterKey : List Nat)
    (rand : Skill → List Nat) (api : ApiPushCall → Except String String)
    (message : Option String) (skill : Skill) :
    PushOutcome × List ApiPushCall :=
  let skillKey := getSkillKey skill
  let contentHash := computeSkillHash skill
  let localHash := hashContent (skill.content ++ filesJson skill.files)
  let existingHash := (lookupIndex index.skills skillKey).map SyncEntry.hash
  if existingHash = some contentHash then (.skipped, [])
  else
    let enc := encryptSkill skill masterKey (rand skill)
    let call : ApiPushCall :=
      ⟨skillKey, contentHash, enc.encryptedData, enc.iv, enc.tag, message⟩
    match api call with
    | .ok createdAt =>
        (.success skillKey contentHash localHash createdAt, [call])
    | .error e =>
        (.failure ("Failed to push " ++ skill.type.toStr ++ "/" ++
          skill.name ++ ": " ++ e), [call])

/-- The reduce step merging one per-skill result into the index
(`acc[result.skillKey] = {...}` for successes, `acc` otherwise). -/
def pushMergeStep (acc : List (String × SyncEntry)) (r : PushOutcome) :
    List (String × SyncEntry) :=
  match r with
  | .success k h lh ts => setEntry acc k ⟨h, none, lh, ts⟩
  | _ => acc

/-- Result of sync.ts `pushSkills`, with the trace of network writes. -/
structure PushSkillsResult where
  index : SyncIndex
  pushed : Nat
  errors : List String
  calls : List ApiPushCall
deriving Repr, DecidableEq

/-- sync.ts `pushSkills`: per-skill decide/encrypt/push, then merge only
the successful results into the index and stamp lastSyncAt. -/
def pushSkillsModel (skills : List Skill) (index : SyncIndex)
    (masterKey : List Nat) (rand : Skill → List Nat)
    (api : ApiPushCall → Except String String) (message : Option String)
    (now : String) : PushSkillsResult :=
  let results := skills.map fun s =>
    (pushOneSkill index masterKey rand api message s).1
  let calls := skills.flatMap fun s =>
    (pushOneSkill index masterKey rand api message s).2
  let newSkills := results.foldl pushMergeStep index.skills
  let pushed := (results.filter fun r =>
    match r with | .success _ _ _ _ => true | _ => false).length
  let errors := results.filterMap fun r =>
    match r with | .failure m => some m | _ => none
  ⟨⟨newSkills, now⟩, pushed, errors, calls⟩

/-- Result of sync.ts `getSyncStatus` (`local` renamed `localCount`). -/
structure SyncStatusResult where
  localCount : Nat
  synced : Nat
  pendingPush : Nat
  pendingPull : Nat
  lastSyncAt : Option String
deriving Repr, DecidableEq

/-- sync.ts `getSyncStatus`. -/
def getSyncStatusModel (skills : List Skill) (index : SyncIndex)
    (listResult : Except String (List RemoteSkill)) : SyncStatusResult :=
  let statuses := skills.map fun skill =>
    (lookupIndex index.skills (getSkillKey skill)).map SyncEntry.hash ==
      some (computeSkillHash skill)
  let syncedCount := (statuses.filter id).length
  let pendingPush := (statuses.filter fun b => !b).length
  let localSkillKeys := skills.map getSkillKey
  let pendingPull :=
    match listResult with
    | .ok remotes => (remotes.filter fun s =>
        s.currentHash.getD "" != "" &&
          !(localSkillKeys.contains s.skillKey)).length
    | .error _ => 0
  ⟨skills.length, syncedCount, pendingPush, pendingPull,
   if index.lastSyncAt = "" then none else some index.lastSyncAt⟩

/-- The decrypted skill payload of sync.ts `decryptSkill`. -/
structure SkillPayload where
  name : String
  content : String
  path : String
  modifiedAt : String
  type : Option SkillType
  files : Option (List SkillFile)
deriving Repr, DecidableEq

/-- Per-remote-skill outcome inside pullSkills. -/
inductive PullOutcome
  | skipped
  | success (skillKey hash content : String)
      (files : Option (List SkillFile)) (updatedAt : String)
  | failure (message : String)
deriving Repr, DecidableEq

/-- The body of the per-skill Promise.all closure in sync.ts
`pullSkills`.  `getSkill` is the api.getSkill oracle returning
(encryptedData, iv, tag); `dec` is `decryptSkill` with the master key
applied (decryptString composed with JSON.parse of the payload), whose
internals no pull property depends on; the second component
is the list of version fetches performed. -/
def pullOneSkill (index : SyncIndex)
    (getSkill : String → Except String (String × String × String))
    (dec : String → String → String → Option SkillPayload)
    (remote : RemoteSkill) : PullOutcome × List String :=
  let existingHash := (lookupIndex index.skills remote.skillKey).map
    SyncEntry.hash
  let same :=
    match existingHash, remote.currentHash with
    | some a, some b => a == b
    | _, _ => false
  if same then (.skipped, [])
  else if remote.currentHash.getD "" == "" then (.skipped, [])
  else
    match getSkill remote.skillKey with
    | .error e =>
        (.failure ("Failed to get " ++ remote.skillKey ++ ": " ++ e),
         [remote.skillKey])
    | .ok r =>
        match dec r.1 r.2.1 r.2.2 with
        | none =>
            (.failure ("Failed to decrypt " ++ remote.skillKey),
             [remote.skillKey])
        | some payload =>
            (.success remote.skillKey (remote.currentHash.getD "")
              payload.content payload.files remote.updatedAt,
             [remote.skillKey])

/-- The reduce step merging one per-skill pull result into the index. -/
def pullMergeStep (acc : List (String × SyncEntry)) (r : PullOutcome) :
    List (String × SyncEntry) :=
  match r with
  | .success k h content files ts =>
      setEntry acc k ⟨h, none, hashContent (content ++ filesJson files), ts⟩
  | _ => acc

/-- Result of sync.ts `pullSkills`, with the trace of version fetches. -/
structure PullSkillsResult where
  index : SyncIndex
  pulled : Nat
  errors : List String
  fetches : List String
deriving Repr, DecidableEq

/-- sync.ts `pullSkills`. -/
def pullSkillsModel (index : SyncIndex)
    (listResult : Except String (List RemoteSkill))
    (getSkill : String → Except String (String × String × String))
    (dec : String → String → String → Option SkillPayload)
    (now : String) : PullSkillsResult :=
  match listResult with
  | .error e => ⟨index, 0, ["Failed to list skills: " ++ e], []⟩
  | .ok remotes =>
      let results := remotes.map fun r =>
        (pullOneSkill index getSkill dec r).1
      let fetches := remotes.flatMap fun r =>
        (pullOneSkill index getSkill dec r).2
      let newSkills := results.foldl pullMergeStep index.skills
      let pulled := (results.filter fun r =>
        match r with | .success _ _ _ _ _ => true | _ => false).length
      let errors := results.filterMap fun r =>
        match r with | .failure m => some m | _ => none
      ⟨⟨newSkills, now⟩, pulled, errors, fetches⟩

/-! ### Sync index lemmas -/

theorem lookupIndex_setEntry_self (l : List (String × SyncEntry))
    (k : String) (e : SyncEntry) :
    lookupIndex (setEntry l k e) k = some e := by
  induction l with
  | nil => simp [setEntry, lookupIndex]
  | cons p rest ih =>
      obtain ⟨k', e'⟩ := p
      rw [setEntry]
      by_cases h : k' == k
      · rw [if_pos h]
        rw [lookupIndex, List.find?]
        simp only [h]
        rfl
      · rw [if_neg h]
        rw [lookupIndex, List.find?]
        simp only [Bool.not_eq_true] at h
        simp only [h]
        exact ih

theorem lookupIndex_setEntry_ne (l : List (String × SyncEntry))
    (k k' : String) (e : SyncEntry) (hne : k' ≠ k) :
    lookupIndex (setEntry l k' e) k = lookupIndex l k := by
  induction l with
  | nil =>
      simp only [setEntry, lookupIndex, List.find?]
      have : (k' == k) = false := beq_eq_false_iff_ne.mpr hne
      simp [this]
  | cons p rest ih =>
      obtain ⟨k0, e0⟩ := p
      rw [setEntry]
      by_cases h : k0 == k'
      · rw [if_pos h]
        rw [lookupIndex, lookupIndex, List.find?, List.find?]
        have hk0 : (k0 == k) = false := by
          have := eq_of_beq h
          exact beq_eq_false_iff_ne.mpr (by rw [this]; exact hne)
        simp [hk0]
      · rw [if_neg h]
        rw [lookupIndex, lookupIndex, List.find?, List.find?]
        by_cases hk : k0 == k
        · simp [hk]
        · simp only [Bool.not_eq_true] at hk
          simp only [hk]
          exact ih

theorem lookup_foldl_push_frame (rs : List PushOutcome) (k : String) :
    ∀ acc, (∀ h lh ts, PushOutcome.success k h lh ts ∉ rs) →
      lookupIndex (rs.foldl pushMergeStep acc) k = lookupIndex acc k := by
  induction rs with
  | nil => intro acc _; rfl
  | cons r rest ih =>
      intro acc hno
      rw [List.foldl_cons]
      rw [ih _ fun h lh ts hm => hno h lh ts (by simp [hm])]
      cases r with
      | skipped => rfl
      | failure m => rfl
      | success k' h lh ts =>
          rw [pushMergeStep]
          exact lookupIndex_setEntry_ne acc k k' _ fun hk =>
            hno h lh ts (by rw [← hk]; simp)

theorem lookup_foldl_pull_frame (rs : List PullOutcome) (k : String) :
    ∀ acc, (∀ h c fs ts, PullOutcome.success k h c fs ts ∉ rs) →
      lookupIndex (rs.foldl pullMergeStep acc) k = lookupIndex acc k := by
  induction rs with
  | nil => intro acc _; rfl
  | cons r rest ih =>
      intro acc hno
      rw [List.foldl_cons]
      rw [ih _ fun h c fs ts hm => hno h c fs ts (by simp [hm])]
      cases r with
      | skipped => rfl
      | failure m => rfl
      | success k' h c fs ts =>
          rw [pullMergeStep]
          exact lookupIndex_setEntry_ne acc k k' _ fun hk =>
            hno h c fs ts (by rw [← hk]; simp)

theorem lookup_foldl_push_found (rs2 : List PushOutcome) (k h lh ts : String)
    (rs1 : List PushOutcome) (acc : List (String × SyncEntry))
    (hafter : ∀ h' lh' ts', PushOutcome.success k h' lh' ts' ∉ rs2) :
    lookupIndex ((rs1 ++ .success k h lh ts :: rs2).foldl pushMergeStep acc)
      k = some ⟨h, none, lh, ts⟩ := by
  rw [List.foldl_append, List.foldl_cons]
  rw [lookup_foldl_push_frame rs2 k _ hafter]
  rw [pushMergeStep]
  exact lookupIndex_setEntry_self _ k _

/-- A successful push outcome for a skill carries that skill's key and
content hash. -/
theorem pushOneSkill_success_shape (index : SyncIndex) (mk : List Nat)
    (rand : Skill → List Nat) (api : ApiPushCall → Except String String)
    (msg : Option String) (s : Skill) (k h lh ts : String)
    (hr : (pushOneSkill index mk rand api msg s).1 =
      .success k h lh ts) :
    k = getSkillKey s ∧ h = computeSkillHash s := by
  rw [pushOneSkill] at hr
  simp only at hr
  split at hr
  · cases hr
  · split at hr
    · cases hr
      exact ⟨rfl, rfl⟩
    · cases hr

/-- A skill whose index hash matches is skipped with no network call. -/
theorem pushOneSkill_skip (index : SyncIndex) (mk : List Nat)
    (rand : Skill → List Nat) (api : ApiPushCall → Except String String)
    (msg : Option String) (s : Skill)
    (hmatch : (lookupIndex index.skills (getSkillKey s)).map SyncEntry.hash =
      some (computeSkillHash s)) :
    pushOneSkill index mk rand api msg s = (.skipped, []) := by
  rw [pushOneSkill]
  simp only
  rw [if_pos hmatch]

/-- After a push whose network calls all succeed, every local skill's
index entry records that skill's content hash. -/
theorem after_pushSkills_lookup (skills : List Skill) (index : SyncIndex)
    (mk : List Nat) (rand : Skill → List Nat)
    (api : ApiPushCall → Except String String) (msg : Option String)
    (now : String)
    (hnodup : (skills.map getSkillKey).Nodup)
    (hok : ∀ c, ∃ t, api c = Except.ok t) :
    ∀ s ∈ skills,
      (lookupIndex (pushSkillsModel skills index mk rand api msg
        now).index.skills (getSkillKey s)).map SyncEntry.hash =
        some (computeSkillHash s) := by
  intro s hs
  rw [pushSkillsModel]
  simp only
  obtain ⟨l1, l2, rfl⟩ := List.append_of_mem hs
  rw [List.map_append, List.map_cons] at hnodup ⊢
  have hd := List.nodup_append.mp hnodup
  have hnotin2 : getSkillKey s ∉ l2.map getSkillKey :=
    (List.nodup_cons.mp hd.2.1).1
  have hnotin1 : getSkillKey s ∉ l1.map getSkillKey := by
    intro hmem
    exact hd.2.2 hmem (by simp)
  have hafter : ∀ h' lh' ts',
      PushOutcome.success (getSkillKey s) h' lh' ts' ∉
        l2.map fun s' => (pushOneSkill index mk rand api msg s').1 := by
    intro h' lh' ts' hmem
    obtain ⟨s', hs', heq⟩ := List.mem_map.mp hmem
    obtain ⟨hk, _⟩ := pushOneSkill_success_shape index mk rand api msg s'
      _ _ _ _ heq
    exact hnotin2 (hk ▸ List.mem_map_of_mem _ hs')
  by_cases hmatch : (lookupIndex index.skills (getSkillKey s)).map
      SyncEntry.hash = some (computeSkillHash s)
  · have hskip := pushOneSkill_skip index mk rand api msg s hmatch
    have hno : ∀ h' lh' ts',
        PushOutcome.success (getSkillKey s) h' lh' ts' ∉
          ((l1.map fun s' => (pushOneSkill index mk rand api msg s').1) ++
            (pushOneSkill index mk rand api msg s).1 ::
            (l2.map fun s' => (pushOneSkill index mk rand api msg s').1)) := by
      intro h' lh' ts' hmem
      rw [List.mem_append, List.mem_cons] at hmem
      rcases hmem with hmem | hmem | hmem
      · obtain ⟨s', hs', heq⟩ := List.mem_map.mp hmem
        obtain ⟨hk, _⟩ := pushOneSkill_success_shape index mk rand api msg
          s' _ _ _ _ heq
        exact hnotin1 (hk ▸ List.mem_map_of_mem _ hs')
      · rw [hskip] at hmem
        cases hmem
      · exact hafter h' lh' ts' hmem
    rw [lookup_foldl_push_frame _ _ _ hno]
    exact hmatch
  · obtain ⟨t, ht⟩ := hok ⟨getSkillKey s, computeSkillHash s,
      (encryptSkill s mk (rand s)).encryptedData,
      (encryptSkill s mk (rand s)).iv,
      (encryptSkill s mk (rand s)).tag, msg⟩
    have hres : (pushOneSkill index mk rand api msg s).1 =
        .success (getSkillKey s) (computeSkillHash s)
          (hashContent (s.content ++ filesJson s.files)) t := by
      rw [pushOneSkill]
      simp only
      rw [if_neg hmatch, ht]
    rw [hres]
    rw [lookup_foldl_push_found _ _ _ _ _ _ _ hafter]
    rfl

/-- When every skill's index hash already matches, push performs zero
network calls and pushes nothing. -/
theorem pushSkillsModel_all_skip (skills : List Skill) (index : SyncIndex)
    (mk : List Nat) (rand : Skill → List Nat)
    (api : ApiPushCall → Except String String) (msg : Option String)
    (now : String)
    (hall : ∀ s ∈ skills,
      (lookupIndex index.skills (getSkillKey s)).map SyncEntry.hash =
        some (computeSkillHash s)) :
    (pushSkillsModel skills index mk rand api msg now).calls = [] ∧
    (pushSkillsModel skills index mk rand api msg now).pushed = 0 := by
  rw [pushSkillsModel]
  simp only
  constructor
  · rw [List.flatMap_eq_nil_iff]
    intro s hs
    rw [pushOneSkill_skip index mk rand api msg s (hall s hs)]
  · rw [List.length_eq_zero, List.filter_eq_nil_iff]
    intro r hr
    obtain ⟨s, hs, heq⟩ := List.mem_map.mp hr
    rw [← heq, pushOneSkill_skip index mk rand api msg s (hall s hs)]
    simp

/-- When every skill's index hash matches, status reports no pending
pushes. -/
theorem status_pendingPush_zero (skills : List Skill) (index : SyncIndex)
    (lr : Except String (List RemoteSkill))
    (hall : ∀ s ∈ skills,
      (lookupIndex index.skills (getSkillKey s)).map SyncEntry.hash =
        some (computeSkillHash s)) :
    (getSyncStatusModel skills index lr).pendingPush = 0 := by
  simp only [getSyncStatusModel]
  rw [List.length_eq_zero, List.filter_eq_nil_iff]
  intro b hb
  obtain ⟨s, hs, heq⟩ := List.mem_map.mp hb
  rw [← heq]
  simp [hall s hs]

/-- getSyncStatus classifies exactly: synced = local skills whose index
hash matches, pendingPush = the rest, pendingPull = remote skills with a
(truthy) current hash whose key is absent locally. -/
theorem getSyncStatus_spec (skills : List Skill) (index : SyncIndex)
    (remotes : List RemoteSkill) :
    (getSyncStatusModel skills index (.ok remotes)).synced =
      (skills.filter fun s =>
        (lookupIndex index.skills (getSkillKey s)).map SyncEntry.hash ==
          some (computeSkillHash s)).length ∧
    (getSyncStatusModel skills index (.ok remotes)).pendingPush =
      (skills.filter fun s =>
        !((lookupIndex index.skills (getSkillKey s)).map SyncEntry.hash ==
          some (computeSkillHash s))).length ∧
    (getSyncStatusModel skills index (.ok remotes)).pendingPull =
      (remotes.filter fun r => r.currentHash.getD "" != "" &&
        !((skills.map getSkillKey).contains r.skillKey)).length := by
  refine ⟨?_, ?_, rfl⟩ <;>
  · simp only [getSyncStatusModel]
    rw [List.filter_map, List.length_map]
    rfl

/-- A remote skill whose current hash equals the index entry's hash is
skipped by pull: no version fetch, no decrypt, no write. -/
theorem pullOneSkill_skip (index : SyncIndex)
    (getSk : String → Except String (String × String × String))
    (dec : String → String → String → Option SkillPayload)
    (remote : RemoteSkill) (h : String)
    (hmatch : (lookupIndex index.skills remote.skillKey).map SyncEntry.hash =
      some h)
    (hcur : remote.currentHash = some h) :
    pullOneSkill index getSk dec remote = (.skipped, []) := by
  rw [pullOneSkill]
  simp only [hmatch, hcur]
  rw [if_pos (by simp)]

/-- Re-pushing content whose version is already stored heals a stale
pointer: the pointer afterwards names the pushed hash, the stored version
set for that hash is unchanged in size, and the stored row keeps its
parentHash/message/createdAt with a refreshed envelope. -/
theorem pushVersion_heal_spec (st : ServerState) (skillKey : String)
    (body : PushBody) (s : SkillRow) (v0 : VersionRow)
    (hv1 : body.hash ≠ "") (hv2 : body.encryptedData ≠ "")
    (hv3 : body.iv ≠ "") (hv4 : body.tag ≠ "")
    (hfound : findSkillByKey st skillKey = some s)
    (hconf : findSkillVersion st s.id body.hash = some v0) :
    ∃ s', findSkillByKey (pushVersionRoute st skillKey body).2 skillKey =
        some s' ∧
      s'.currentHash = some body.hash ∧ s'.id = s.id ∧
      countVersions (pushVersionRoute st skillKey body).2 s.id body.hash =
        countVersions st s.id body.hash ∧
      findSkillVersion (pushVersionRoute st skillKey body).2 s.id
        body.hash =
        some { v0 with encryptedData := body.encryptedData, iv := body.iv, tag := body.tag } := by
  rw [pushVersionRoute_found_conflict st skillKey body s v0 hv1 hv2 hv3 hv4
    hfound hconf]
  have hfmid : findSkillByKey
      { st with versions := st.versions.map fun v =>
          if v.skillId == s.id && v.hash == body.hash then
            { v with encryptedData := body.encryptedData, iv := body.iv, tag := body.tag }
          else v } skillKey = some s := hfound
  have hfD : findSkillByKey
      (updateSkillCurrentHash
        { st with versions := st.versions.map fun v =>
            if v.skillId == s.id && v.hash == body.hash then
              { v with encryptedData := body.encryptedData, iv := body.iv, tag := body.tag }
            else v } s.id body.hash) skillKey =
      some { s with currentHash := some body.hash, updatedAt := st.now } := by
    rw [findSkillByKey_updateSkillCurrentHash _ _ _ _ _ hfmid]
    rw [if_pos (by simp)]
  refine ⟨_, hfD, rfl, rfl, ?_, ?_⟩
  · rw [countVersions_updateSkillCurrentHash]
    exact countVersions_conflict_state st s.id body.hash _ _ _ s.id body.hash
  · rw [findSkillVersion_updateSkillCurrentHash]
    exact findSkillVersion_conflict_state st s.id body.hash _ _ _ v0 hconf

/-! ### Claims -/

/-- C1: For every plaintext byte sequence P and key K, decrypting the
output of encrypt(P, K) (ciphertext, iv and tag, under the same key K)
yields exactly P; and for every UTF-8 string s, decryptString applied to
the base64 fields produced by encryptString(s, K) under the same key
returns s (key and iv randomness are byte sequences, i.e. below 256). -/
theorem claim_C1 :
    (∀ pt key ivRand : List Nat,
      decrypt (encrypt pt key ivRand).ciphertext key
        (encrypt pt key ivRand).iv (encrypt pt key ivRand).tag = some pt) ∧
    (∀ (s : String) (key ivRand : List Nat),
      (∀ b ∈ key, b < 256) → (∀ b ∈ ivRand, b < 256) →
      decryptString (encryptString s key ivRand).ciphertext key
        (encryptString s key ivRand).iv (encryptString s key ivRand).tag =
        some s) :=
  ⟨decrypt_encrypt_bytes, decryptString_encryptString⟩

theorem claim_C1_witness :
    (∀ b ∈ [7, 200], b < 256) ∧
    (∀ b ∈ [0, 1, 2, 3, 4, 5, 6, 7, 8, 9, 10, 11], b < 256) ∧
    decryptString (encryptString "hi" [7, 200]
        [0, 1, 2, 3, 4, 5, 6, 7, 8, 9, 10, 11]).ciphertext [7, 200]
      (encryptString "hi" [7, 200]
        [0, 1, 2, 3, 4, 5, 6, 7, 8, 9, 10, 11]).iv
      (encryptString "hi" [7, 200]
        [0, 1, 2, 3, 4, 5, 6, 7, 8, 9, 10, 11]).tag = some "hi" :=
  ⟨by decide, by decide,
   claim_C1.2 "hi" [7, 200] [0, 1, 2, 3, 4, 5, 6, 7, 8, 9, 10, 11]
     (by decide) (by decide)⟩

/-- C3: For every passphrase and every 16-byte salt, wrapping a 32-byte
master key under the passphrase-derived key and storing it as the fixed
concatenation iv ∥ tag ∥ ciphertext, then unlocking with the same
passphrase and salt (slicing the blob at offsets [0,12), [12,28),
[28,end) and decrypting) returns the original master-key bytes. -/
theorem claim_C3 (passphrase : String) (masterKey salt ivRand : List Nat)
    (hmklen : masterKey.length = 32) (hmk : ∀ b ∈ masterKey, b < 256)
    (hsaltlen : salt.length = 16) (hsalt : ∀ b ∈ salt, b < 256)
    (hivlen : ivRand.length = 12) (hiv : ∀ b ∈ ivRand, b < 256) :
    getMasterKey passphrase (toBase64 salt)
      (toBase64 (wrapMasterKeyBlob masterKey passphrase salt ivRand)) =
      some masterKey :=
  getMasterKey_wrap passphrase masterKey salt ivRand hmk hsalt hivlen hiv

theorem claim_C3_witness :
    (List.replicate 32 7).length = 32 ∧
    (List.replicate 16 3).length = 16 ∧
    (List.replicate 12 1).length = 12 ∧
    getMasterKey "pw" (toBase64 (List.replicate 16 3))
      (toBase64 (wrapMasterKeyBlob (List.replicate 32 7) "pw"
        (List.replicate 16 3) (List.replicate 12 1))) =
      some (List.replicate 32 7) :=
  ⟨by decide, by decide, by decide,
   claim_C3 "pw" (List.replicate 32 7) (List.replicate 16 3)
     (List.replicate 12 1) (by decide) (by decide) (by decide) (by decide)
     (by decide) (by decide)⟩

set_option maxRecDepth 1000000 in
/-- C4 (counterexample): two skills whose canonical fields agree except
that the supporting files are listed in a different order produce
different content hashes — the canonical JSON keeps the files array in
construction order, so the claim as stated fails. -/
theorem claim_C4_counterexample :
    computeSkillHash ⟨"a", "c", [], "p", "t", .skill,
        some [⟨"f1", "x"⟩, ⟨"f2", "y"⟩]⟩ ≠
    computeSkillHash ⟨"a", "c", [], "p", "t", .skill,
        some [⟨"f2", "y"⟩, ⟨"f1", "x"⟩]⟩ := by decide

/-- C4 (amended): the content hash depends only on the canonical fields
(name, type, body content, and the supporting-files list in its given
order); construction differences in path, modification time or metadata
never change the hash, but the order of the supporting files does. -/
theorem claim_C4 (A B : Skill) (h1 : A.name = B.name)
    (h2 : A.type = B.type) (h3 : A.content = B.content)
    (h4 : A.files = B.files) :
    computeSkillHash A = computeSkillHash B :=
  computeSkillHash_congr A B h1 h2 h3 h4

theorem claim_C4_witness :
    computeSkillHash ⟨"a", "c", [], "p1", "2024", .skill,
        some [⟨"f", "x"⟩]⟩ =
    computeSkillHash ⟨"a", "c", [("author", "zed")], "p2", "2025", .skill,
        some [⟨"f", "x"⟩]⟩ :=
  claim_C4 _ _ rfl rfl rfl rfl

/-- C9: For every recovery key produced by generateRecoveryKey (8 words
indexed by 8 random bytes in the 256-entry wordlist), parsing the
displayed text form returns the same words and bytes, despite the
upper-casing and hyphen-joining. -/
theorem claim_C9 (rand : List Nat) (hlen : rand.length = 8)
    (hb : ∀ b ∈ rand, b < 256) :
    parseRecoveryKey (formatRecoveryKey (generateRecoveryKey rand)) =
      some (generateRecoveryKey rand) :=
  parseRecoveryKey_format rand hlen hb

theorem claim_C9_witness :
    ([0, 1, 2, 255, 254, 100, 50, 7] : List Nat).length = 8 ∧
    parseRecoveryKey (formatRecoveryKey (generateRecoveryKey
      [0, 1, 2, 255, 254, 100, 50, 7])) =
      some (generateRecoveryKey [0, 1, 2, 255, 254, 100, 50, 7]) :=
  ⟨by decide,
   claim_C9 [0, 1, 2, 255, 254, 100, 50, 7] (by decide) (by decide)⟩

/-- C5 (counterexample): pushing h1, then h2, then h1 again to the same
skill.  The third push hits the stored version for h1 and the conflict
branch keeps its original parentHash (none), which is not the server's
current hash (h2) observed immediately before that third push — the
claim fails for re-pushes of an already-stored hash. -/
theorem claim_C5_counterexample :
    let st1 := (pushVersionRoute ⟨[], [], 1, 10⟩ "command:a"
      ⟨"h1", "e1", "i1", "t1", none⟩).2
    let st2 := (pushVersionRoute st1 "command:a"
      ⟨"h2", "e2", "i2", "t2", none⟩).2
    let st3 := (pushVersionRoute st2 "command:a"
      ⟨"h1", "e3", "i3", "t3", none⟩).2
    (findSkillByKey st2 "command:a").bind SkillRow.currentHash =
      some "h2" ∧
    (findSkillVersion st3 1 "h1").map VersionRow.parentHash = some none ∧
    (findSkillVersion st3 1 "h1").map VersionRow.parentHash ≠
      some ((findSkillByKey st2 "command:a").bind SkillRow.currentHash) := by
  decide

/-- C5 (amended): when the pushed content hash is NOT already stored for
the skill, the created version's parentHash equals the skill's
current-hash value as observed immediately before the push (null when
the skill did not exist or had no current version), and after the push
the skill's current-hash pointer equals the pushed hash.  (A re-push of
an already-stored hash keeps that version's original parentHash.) -/
theorem claim_C5 (st : ServerState) (skillKey : String) (body : PushBody)
    (hv1 : body.hash ≠ "") (hv2 : body.encryptedData ≠ "")
    (hv3 : body.iv ≠ "") (hv4 : body.tag ≠ "")
    (hid : ∀ s ∈ st.skills, s.id < st.nextId)
    (hfk : ∀ v ∈ st.versions, ∃ s ∈ st.skills, v.skillId = s.id)
    (hfresh : ∀ s, findSkillByKey st skillKey = some s →
      findSkillVersion st s.id body.hash = none) :
    ∃ v : VersionRow,
      findSkillVersion (pushVersionRoute st skillKey body).2 v.skillId
        body.hash = some v ∧
      v.hash = body.hash ∧
      v.parentHash = (findSkillByKey st skillKey).bind SkillRow.currentHash ∧
      ∃ s', findSkillByKey (pushVersionRoute st skillKey body).2 skillKey =
          some s' ∧ s'.currentHash = some body.hash ∧ s'.id = v.skillId :=
  pushVersion_fresh_spec st skillKey body hv1 hv2 hv3 hv4 hid hfk hfresh

theorem claim_C5_witness :
    ("h1" : String) ≠ "" ∧
    ∃ v : VersionRow,
      findSkillVersion (pushVersionRoute ⟨[], [], 1, 0⟩ "command:a"
        ⟨"h1", "e", "i", "t", none⟩).2 v.skillId "h1" = some v ∧
      v.hash = "h1" ∧
      v.parentHash =
        (findSkillByKey ⟨[], [], 1, 0⟩ "command:a").bind
          SkillRow.currentHash ∧
      ∃ s', findSkillByKey (pushVersionRoute ⟨[], [], 1, 0⟩ "command:a"
          ⟨"h1", "e", "i", "t", none⟩).2 "command:a" = some s' ∧
        s'.currentHash = some "h1" ∧ s'.id = v.skillId :=
  ⟨by decide,
   claim_C5 ⟨[], [], 1, 0⟩ "command:a" ⟨"h1", "e", "i", "t", none⟩
     (by decide) (by decide) (by decide) (by decide) (by simp)
     (by simp) (fun s hs => by simp [findSkillByKey] at hs)⟩

/-- C6 (counterexample): pushing the same hash twice with different
commit messages m1 then m2: the stored row's envelope is refreshed to
the second push's, but its message stays m1 — the onConflictDoUpdate set
clause does not include message, so the "updates the ... message"
part of the claim fails. -/
theorem claim_C6_counterexample :
    let st1 := (pushVersionRoute ⟨[], [], 1, 10⟩ "command:a"
      ⟨"h", "e1", "i1", "t1", some "m1"⟩).2
    let st2 := (pushVersionRoute st1 "command:a"
      ⟨"h", "e2", "i2", "t2", some "m2"⟩).2
    (findSkillVersion st2 1 "h").map VersionRow.encryptedData =
      some "e2" ∧
    (findSkillVersion st2 1 "h").map VersionRow.message =
      some (some "m1") ∧
    (findSkillVersion st2 1 "h").map VersionRow.message ≠
      some (some "m2") := by
  decide

/-- C6 (amended): createSkillVersion is idempotent on (skillId,
contentHash): pushing the same content hash twice for the same skill
leaves exactly one stored version for that hash, the second push updates
the stored envelope (encryptedData, iv, tag) — but NOT the message,
which keeps the first push's value — and the pointer names the hash. -/
theorem claim_C6 (st : ServerState) (skillKey : String)
    (body1 body2 : PushBody)
    (ha1 : body1.hash ≠ "") (ha2 : body1.encryptedData ≠ "")
    (ha3 : body1.iv ≠ "") (ha4 : body1.tag ≠ "")
    (hb2 : body2.encryptedData ≠ "") (hb3 : body2.iv ≠ "")
    (hb4 : body2.tag ≠ "")
    (hsame : body2.hash = body1.hash)
    (hid : ∀ s ∈ st.skills, s.id < st.nextId)
    (hfk : ∀ v ∈ st.versions, ∃ s ∈ st.skills, v.skillId = s.id)
    (hfresh : ∀ s, findSkillByKey st skillKey = some s →
      findSkillVersion st s.id body1.hash = none) :
    ∃ s' : SkillRow,
      findSkillByKey
        (pushVersionRoute (pushVersionRoute st skillKey body1).2 skillKey
          body2).2 skillKey = some s' ∧
      s'.currentHash = some body1.hash ∧
      countVersions
        (pushVersionRoute (pushVersionRoute st skillKey body1).2 skillKey
          body2).2 s'.id body1.hash = 1 ∧
      ∃ v : VersionRow,
        findSkillVersion
          (pushVersionRoute (pushVersionRoute st skillKey body1).2 skillKey
            body2).2 s'.id body1.hash = some v ∧
        v.encryptedData = body2.encryptedData ∧ v.iv = body2.iv ∧
        v.tag = body2.tag ∧ v.message = body1.message :=
  pushVersion_idempotent_spec st skillKey body1 body2 ha1 ha2 ha3 ha4
    hb2 hb3 hb4 hsame hid hfk hfresh

theorem claim_C6_witness :
    ("h" : String) ≠ "" ∧
    ∃ s' : SkillRow,
      findSkillByKey
        (pushVersionRoute (pushVersionRoute ⟨[], [], 1, 0⟩ "command:a"
          ⟨"h", "e1", "i1", "t1", some "m1"⟩).2 "command:a"
          ⟨"h", "e2", "i2", "t2", some "m2"⟩).2 "command:a" = some s' ∧
      s'.currentHash = some "h" ∧
      countVersions
        (pushVersionRoute (pushVersionRoute ⟨[], [], 1, 0⟩ "command:a"
          ⟨"h", "e1", "i1", "t1", some "m1"⟩).2 "command:a"
          ⟨"h", "e2", "i2", "t2", some "m2"⟩).2 s'.id "h" = 1 ∧
      ∃ v : VersionRow,
        findSkillVersion
          (pushVersionRoute (pushVersionRoute ⟨[], [], 1, 0⟩ "command:a"
            ⟨"h", "e1", "i1", "t1", some "m1"⟩).2 "command:a"
            ⟨"h", "e2", "i2", "t2", some "m2"⟩).2 s'.id "h" = some v ∧
        v.encryptedData = "e2" ∧ v.iv = "i2" ∧ v.tag = "t2" ∧
        v.message = some "m1" :=
  ⟨by decide,
   claim_C6 ⟨[], [], 1, 0⟩ "command:a" ⟨"h", "e1", "i1", "t1", some "m1"⟩
     ⟨"h", "e2", "i2", "t2", some "m2"⟩ (by decide) (by decide)
     (by decide) (by decide) (by decide) (by decide) (by decide) rfl
     (by simp) (by simp) (fun s hs => by simp [findSkillByKey] at hs)⟩

/-- C7: (1) a local skill whose computed content hash equals the hash
recorded in the sync index is skipped by push with no network call;
(2) status classifies exactly — synced = skills whose index hash
matches, pendingPush = the rest, pendingPull = remote skills with a
truthy current hash whose key is absent locally; (3) re-running push
right after a push whose network calls all succeeded performs zero
network writes, pushes nothing, and status reports pendingPush = 0. -/
theorem claim_C7 :
    (∀ (index : SyncIndex) (mk : List Nat) (rand : Skill → List Nat)
      (api : ApiPushCall → Except String String) (msg : Option String)
      (s : Skill),
      (lookupIndex index.skills (getSkillKey s)).map SyncEntry.hash =
        some (computeSkillHash s) →
      pushOneSkill index mk rand api msg s = (.skipped, [])) ∧
    (∀ (skills : List Skill) (index : SyncIndex)
      (remotes : List RemoteSkill),
      (getSyncStatusModel skills index (.ok remotes)).synced =
        (skills.filter fun s =>
          (lookupIndex index.skills (getSkillKey s)).map SyncEntry.hash ==
            some (computeSkillHash s)).length ∧
      (getSyncStatusModel skills index (.ok remotes)).pendingPush =
        (skills.filter fun s =>
          !((lookupIndex index.skills (getSkillKey s)).map SyncEntry.hash ==
            some (computeSkillHash s))).length ∧
      (getSyncStatusModel skills index (.ok remotes)).pendingPull =
        (remotes.filter fun r => r.currentHash.getD "" != "" &&
          !((skills.map getSkillKey).contains r.skillKey)).length) ∧
    (∀ (skills : List Skill) (index : SyncIndex) (mk : List Nat)
      (rand : Skill → List Nat) (api : ApiPushCall → Except String String)
      (msg : Option String) (now : String) (mk2 : List Nat)
      (rand2 : Skill → List Nat)
      (api2 : ApiPushCall → Except String String) (msg2 : Option String)
      (now2 : String) (remotes : List RemoteSkill),
      (skills.map getSkillKey).Nodup →
      (∀ c, ∃ t, api c = Except.ok t) →
      (pushSkillsModel skills (pushSkillsModel skills index mk rand api
        msg now).index mk2 rand2 api2 msg2 now2).calls = [] ∧
      (pushSkillsModel skills (pushSkillsModel skills index mk rand api
        msg now).index mk2 rand2 api2 msg2 now2).pushed = 0 ∧
      (getSyncStatusModel skills (pushSkillsModel skills index mk rand api
        msg now).index (.ok remotes)).pendingPush = 0) := by
  refine ⟨pushOneSkill_skip, getSyncStatus_spec, ?_⟩
  intro skills index mk rand api msg now mk2 rand2 api2 msg2 now2 remotes
    hnd hok
  have hall := after_pushSkills_lookup skills index mk rand api msg now
    hnd hok
  obtain ⟨h1, h2⟩ := pushSkillsModel_all_skip skills _ mk2 rand2 api2 msg2
    now2 hall
  exact ⟨h1, h2, status_pendingPush_zero skills _ (Except.ok remotes) hall⟩

theorem claim_C7_witness :
    (([] : List Skill).map getSkillKey).Nodup ∧
    (pushSkillsModel [] (pushSkillsModel [] ⟨[], ""⟩ [] (fun _ => [])
        (fun _ => (Except.ok "t" : Except String String)) none "n").index
      [] (fun _ => []) (fun _ => (Except.ok "t" : Except String String))
      none "n").calls = [] ∧
    (getSyncStatusModel [] (pushSkillsModel [] ⟨[], ""⟩ [] (fun _ => [])
        (fun _ => (Except.ok "t" : Except String String)) none "n").index
      (.ok [])).pendingPush = 0 := by
  have h := claim_C7.2.2 [] ⟨[], ""⟩ [] (fun _ => [])
    (fun _ => (Except.ok "t" : Except String String)) none "n" []
    (fun _ => []) (fun _ => (Except.ok "t" : Except String String)) none
    "n" [] (by simp) (fun c => ⟨"t", rfl⟩)
  exact ⟨by simp, h.1, h.2.2⟩

/-- C8 (counterexample): a crashed state where the stored version list
(newest-first: h2) disagrees with the skill's current-hash pointer (h1),
and a local index that also records h1.  Running the pull reconciler
(with the repository's GET routes as the oracles) fetches nothing, pulls
nothing, reports no error and leaves the pointer disagreement in place —
the version list is never consulted, so no pointer update is re-issued
and nothing self-heals on sync. -/
theorem claim_C8_counterexample :
    let st : ServerState :=
      ⟨[⟨1, "skill:deploy", some "h1", 2⟩],
       [⟨1, "h1", "e1", "i1", "t1", none, none, 1⟩,
        ⟨1, "h2", "e2", "i2", "t2", some "h1", none, 2⟩], 2, 3⟩
    let idx : SyncIndex :=
      ⟨[("skill:deploy", ⟨"h1", none, "lh", "ts"⟩)], "ts"⟩
    let res := pullSkillsModel idx (.ok (listSkillsRoute st))
      (fun k => match getSkillRoute st k with
        | .found v => .ok (v.encryptedData, v.iv, v.tag)
        | .notFound m => .error m)
      (fun _ _ _ => none) "now"
    ((listSkillVersions st 1 50).head?).map VersionRow.hash =
      some "h2" ∧
    (findSkillByKey st "skill:deploy").bind SkillRow.currentHash =
      some "h1" ∧
    res.fetches = [] ∧ res.pulled = 0 ∧ res.errors = [] ∧
    (some "h1" : Option String) ≠ some "h2" := by
  decide

/-- C8 (amended): the reconcilers decide by the current-hash pointer,
never by the version list: (1) pull skips a remote skill (no version
fetch, no decrypt, no index write) exactly when the pointer matches the
local index entry; (2) what does heal a stale pointer is re-pushing
content whose version is already stored — the conflict upsert leaves the
version set for that hash unchanged in size, refreshes its envelope, and
the route's unconditional pointer update re-points the skill at the
pushed hash. -/
theorem claim_C8 :
    (∀ (index : SyncIndex)
      (getSk : String → Except String (String × String × String))
      (dec : String → String → String → Option SkillPayload)
      (remote : RemoteSkill) (h : String),
      (lookupIndex index.skills remote.skillKey).map SyncEntry.hash =
        some h →
      remote.currentHash = some h →
      pullOneSkill index getSk dec remote = (.skipped, [])) ∧
    (∀ (st : ServerState) (skillKey : String) (body : PushBody)
      (s : SkillRow) (v0 : VersionRow),
      body.hash ≠ "" → body.encryptedData ≠ "" → body.iv ≠ "" →
      body.tag ≠ "" →
      findSkillByKey st skillKey = some s →
      findSkillVersion st s.id body.hash = some v0 →
      ∃ s', findSkillByKey (pushVersionRoute st skillKey body).2 skillKey =
          some s' ∧
        s'.currentHash = some body.hash ∧ s'.id = s.id ∧
        countVersions (pushVersionRoute st skillKey body).2 s.id
          body.hash = countVersions st s.id body.hash ∧
        findSkillVersion (pushVersionRoute st skillKey body).2 s.id
          body.hash =
          some { v0 with encryptedData := body.encryptedData, iv := body.iv, tag := body.tag }) :=
  ⟨pullOneSkill_skip,
   fun st skillKey body s v0 h1 h2 h3 h4 hf hc =>
     pushVersion_heal_spec st skillKey body s v0 h1 h2 h3 h4 hf hc⟩

theorem claim_C8_witness :
    ("h2" : String) ≠ "" ∧
    findSkillByKey ⟨[⟨1, "skill:deploy", some "h1", 2⟩],
        [⟨1, "h1", "e1", "i1", "t1", none, none, 1⟩,
         ⟨1, "h2", "e2", "i2", "t2", some "h1", none, 2⟩], 2, 3⟩
      "skill:deploy" = some ⟨1, "skill:deploy", some "h1", 2⟩ ∧
    ∃ s', findSkillByKey (pushVersionRoute
        ⟨[⟨1, "skill:deploy", some "h1", 2⟩],
         [⟨1, "h1", "e1", "i1", "t1", none, none, 1⟩,
          ⟨1, "h2", "e2", "i2", "t2", some "h1", none, 2⟩], 2, 3⟩
        "skill:deploy" ⟨"h2", "E", "I", "T", none⟩).2 "skill:deploy" =
        some s' ∧
      s'.currentHash = some "h2" ∧ s'.id = 1 ∧
      countVersions (pushVersionRoute
        ⟨[⟨1, "skill:deploy", some "h1", 2⟩],
         [⟨1, "h1", "e1", "i1", "t1", none, none, 1⟩,
          ⟨1, "h2", "e2", "i2", "t2", some "h1", none, 2⟩], 2, 3⟩
        "skill:deploy" ⟨"h2", "E", "I", "T", none⟩).2 1 "h2" =
        countVersions
          ⟨[⟨1, "skill:deploy", some "h1", 2⟩],
           [⟨1, "h1", "e1", "i1", "t1", none, none, 1⟩,
            ⟨1, "h2", "e2", "i2", "t2", some "h1", none, 2⟩], 2, 3⟩
          1 "h2" ∧
      findSkillVersion (pushVersionRoute
        ⟨[⟨1, "skill:deploy", some "h1", 2⟩],
         [⟨1, "h1", "e1", "i1", "t1", none, none, 1⟩,
          ⟨1, "h2", "e2", "i2", "t2", some "h1", none, 2⟩], 2, 3⟩
        "skill:deploy" ⟨"h2", "E", "I", "T", none⟩).2 1 "h2" =
        some ⟨1, "h2", "E", "I", "T", some "h1", none, 2⟩ :=
  ⟨by decide, by decide,
   claim_C8.2
     ⟨[⟨1, "skill:deploy", some "h1", 2⟩],
      [⟨1, "h1", "e1", "i1", "t1", none, none, 1⟩,
       ⟨1, "h2", "e2", "i2", "t2", some "h1", none, 2⟩], 2, 3⟩
     "skill:deploy" ⟨"h2", "E", "I", "T", none⟩
     ⟨1, "skill:deploy", some "h1", 2⟩
     ⟨1, "h2", "e2", "i2", "t2", some "h1", none, 2⟩
     (by decide) (by decide) (by decide) (by decide) (by decide)
     (by decide)⟩

/-- C10: push and pull modify the local sync index only at keys for
which the batch produced a success outcome: any key with no success
outcome in the batch keeps its entry (or its absence) byte-for-byte; the
batch stamps lastSyncAt with the batch timestamp, and a failed listing
leaves the pull index untouched entirely. -/
theorem claim_C10 :
    (∀ (skills : List Skill) (index : SyncIndex) (mk : List Nat)
      (rand : Skill → List Nat) (api : ApiPushCall → Except String String)
      (msg : Option String) (now k : String),
      (∀ h lh ts, PushOutcome.success k h lh ts ∉
        skills.map fun s => (pushOneSkill index mk rand api msg s).1) →
      lookupIndex (pushSkillsModel skills index mk rand api msg
        now).index.skills k = lookupIndex index.skills k) ∧
    (∀ (skills : List Skill) (index : SyncIndex) (mk : List Nat)
      (rand : Skill → List Nat) (api : ApiPushCall → Except String String)
      (msg : Option String) (now : String),
      (pushSkillsModel skills index mk rand api msg now).index.lastSyncAt =
        now) ∧
    (∀ (index : SyncIndex) (remotes : List RemoteSkill)
      (getSk : String → Except String (String × String × String))
      (dec : String → String → String → Option SkillPayload)
      (now k : String),
      (∀ h c fs ts, PullOutcome.success k h c fs ts ∉
        remotes.map fun r => (pullOneSkill index getSk dec r).1) →
      lookupIndex (pullSkillsModel index (.ok remotes) getSk dec
        now).index.skills k = lookupIndex index.skills k) ∧
    (∀ (index : SyncIndex) (remotes : List RemoteSkill)
      (getSk : String → Except String (String × String × String))
      (dec : String → String → String → Option SkillPayload)
      (now : String),
      (pullSkillsModel index (.ok remotes) getSk dec
        now).index.lastSyncAt = now) ∧
    (∀ (index : SyncIndex) (e : String)
      (getSk : String → Except String (String × String × String))
      (dec : String → String → String → Option SkillPayload)
      (now : String),
      (pullSkillsModel index (.error e) getSk dec now).index = index) := by
  refine ⟨?_, fun _ _ _ _ _ _ _ => rfl, ?_, fun _ _ _ _ _ => rfl,
    fun _ _ _ _ _ => rfl⟩
  · intro skills index mk rand api msg now k hno
    exact lookup_foldl_push_frame _ k index.skills hno
  · intro index remotes getSk dec now k hno
    exact lookup_foldl_pull_frame _ k index.skills hno

theorem claim_C10_witness :
    (∀ h lh ts, PushOutcome.success "k" h lh ts ∉
      ([] : List Skill).map fun s =>
        (pushOneSkill ⟨[("k", ⟨"h0", none, "l", "t"⟩)], ""⟩ []
          (fun _ => []) (fun _ => (Except.ok "t" : Except String String))
          none s).1) ∧
    lookupIndex (pushSkillsModel [] ⟨[("k", ⟨"h0", none, "l", "t"⟩)], ""⟩
        [] (fun _ => []) (fun _ => (Except.ok "t" : Except String String))
        none "n").index.skills "k" =
      lookupIndex [("k", ⟨"h0", none, "l", "t"⟩)] "k" :=
  ⟨fun h lh ts hm => absurd hm (List.not_mem_nil _),
   claim_C10.1 [] ⟨[("k", ⟨"h0", none, "l", "t"⟩)], ""⟩ [] (fun _ => [])
     (fun _ => (Except.ok "t" : Except String String)) none "n" "k"
     (fun h lh ts hm => absurd hm (List.not_mem_nil _))⟩

end CSM
